import Mathlib

/-!
A shallow embedding of sherpa-onnx `csrc/lexicon.cc`.

`std::string` is a list of bytes (`Nat` values below 256), `int32_t`/`int64_t`
ids are `Int` (the only widening is value preserving), `std::unordered_map`
is an association list read through `find`/`count` and written through the
non-overwriting `insert`, `std::unordered_set` is a list read through
membership.  A stream is the list of its bytes; `std::getline` and the `>>`
extractions are functions on it that also tell whether `eofbit` is set.

Fatal paths: `exit(-1)` in `ReadTokens` is `Except.error` with the logged
line, `exit(-1)` in `InitLanguage` and an exception escaping
`unordered_map::at` in the conversions are `none`.

`SplitUtf8` and `SplitStringToVector` live in `text-utils.cc`; the functions
of this file that call them take them as a parameter.  `segmentUnits` and
`specSplitStringToVector` are models of the two from the specification.
-/

namespace sherpa_onnx

/-- A `std::string`: its bytes. -/
abbrev Str := List Nat

/-! ## Byte classes and `ToLowerCase` -/

/-- Models `std::isspace` in the "C" locale: space, `\t`, `\n`, `\v`, `\f`, `\r`. -/
def isSpace (c : Nat) : Bool := c == 32 || (9 ≤ c && c ≤ 13)

/-- Models `std::isdigit`. -/
def isDigit (c : Nat) : Bool := 48 ≤ c && c ≤ 57

/-- Models `std::tolower` on an `unsigned char` in the "C" locale. -/
def tolower (c : Nat) : Nat := if 65 ≤ c ∧ c ≤ 90 then c + 32 else c

/-- Models `ToLowerCase(std::string *in_out)`: `std::transform` with `std::tolower`. -/
def ToLowerCase (in_out : Str) : Str := in_out.map tolower

/-! ## String literals of the source -/

/-- The string literal `"sil"`. -/
def str_sil : Str := [115, 105, 108]

/-- The string literal `"eos"`. -/
def str_eos : Str := [101, 111, 115]

/-- The string literal `" "`. -/
def str_blank : Str := [32]

/-- The string literal `"english"`. -/
def str_english : Str := [101, 110, 103, 108, 105, 115, 104]

/-- The string literal `"chinese"`. -/
def str_chinese : Str := [99, 104, 105, 110, 101, 115, 101]

/-! ## `std::unordered_map<std::string, V>` -/

/-- The map as its list of entries; keys are pairwise distinct because the
only writer is `insert`. -/
abbrev UMap (ν : Type) := List (Str × ν)

/-- Models `m.find(k)`: the mapped value, `none` for `end()`.  `m.at(k)` is this
value when present and throws `std::out_of_range` otherwise. -/
def UMap.find {ν : Type} : UMap ν → Str → Option ν
  | [], _ => none
  | (k', v) :: m, k => if k' = k then some v else UMap.find m k

/-- Models `m.count(k)`: 1 when the key is present, else 0. -/
def UMap.count {ν : Type} (m : UMap ν) (k : Str) : Nat :=
  match m.find k with
  | some _ => 1
  | none => 0

/-- Models `m.insert({k, v})`: adds the entry only when the key is absent; an existing
entry is left as it is. -/
def UMap.insert {ν : Type} (m : UMap ν) (k : Str) (v : ν) : UMap ν :=
  if m.count k = 0 then m ++ [(k, v)] else m

/-- Models `s.count(w)` of a `std::unordered_set<std::string>`. -/
def setCount (s : List Str) (w : Str) : Nat := if w ∈ s then 1 else 0

/-- Models `s.insert(w)` of a `std::unordered_set<std::string>`. -/
def setInsert (s : List Str) (w : Str) : List Str := if w ∈ s then s else s ++ [w]

/-! ## `std::istream` operations -/

/-- The lines that successive `std::getline(is, line)` calls return until one
fails: the stream is cut at each `\n` (byte 10), and a last line without `\n`
is returned only when it is not empty. -/
def getLines : Str → List Str
  | [] => []
  | c :: cs =>
    if c = 10 then [] :: getLines cs
    else
      match getLines cs with
      | [] => [[c]]
      | l :: ls => (c :: l) :: ls

/-- The negation of `isSpace`. -/
def notSpace (c : Nat) : Bool := !isSpace c

/-- Models `iss >> s` for a `std::string s` on a stream in good state whose unread
bytes are `buf`.  The sentry skips white space; when nothing is left the
extraction fails (`none`: `eofbit` and `failbit` are set and `s` keeps its old
value).  Otherwise `s` becomes the maximal run of non-space bytes and the second
component is what is left unread; `eofbit` is set exactly when nothing is left
unread (the run was ended by the end of the stream). -/
def extractString (buf : Str) : Option (Str × Str) :=
  match buf.dropWhile isSpace with
  | [] => none
  | c :: cs => some ((c :: cs).takeWhile notSpace, (c :: cs).dropWhile notSpace)

/-- The strings that `while (iss >> s)` extracts, one per iteration, with
the iteration count bounded by the first argument. -/
def readFields : Nat → Str → List Str
  | 0, _ => []
  | n + 1, buf =>
    match extractString buf with
    | none => []
    | some (w, rest) => w :: readFields n rest

/-- The strings that `while (iss >> s)` extracts from `buf`; every successful
extraction consumes a byte, so `buf.length` iterations are enough (see
`readFields_fuel`). -/
def fields (buf : Str) : List Str := readFields buf.length buf

/-- The value of a run of decimal digits. -/
def decVal (ds : Str) : Nat := ds.foldl (fun a d => 10 * a + (d - 48)) 0

/-- Models `INT32_MAX`. -/
def INT32_MAX : Int := 2147483647

/-- Models `INT32_MIN`. -/
def INT32_MIN : Int := -2147483648

/-- Saturation to the range of `int32_t`, as `num_get` does on overflow. -/
def clampInt32 (v : Int) : Int :=
  if v < INT32_MIN then INT32_MIN else if INT32_MAX < v then INT32_MAX else v

/-- Saturation to the range of a 64-bit `long`, as `strtol` does. -/
def clampInt64 (v : Int) : Int :=
  if v < -9223372036854775808 then -9223372036854775808
  else if 9223372036854775807 < v then 9223372036854775807 else v

/-- Conversion of a `long` to `int` (two's complement truncation). -/
def wrapInt32 (v : Int) : Int := (v + 2147483648) % 4294967296 - 2147483648

/-- An optional sign `-` (byte 45) or `+` (byte 43): whether it is `-`, and the
bytes after it. -/
def takeSign : Str → Bool × Str
  | 45 :: r => (true, r)
  | 43 :: r => (false, r)
  | b => (false, b)

/-- Models `iss >> id` for an `int32_t id` on a stream in good state whose unread
bytes are `buf`; the result is the new value of `id` and whether `eofbit` is
set afterwards.  When only white space is left the sentry fails, `id` keeps
its old value and `eofbit` is set.  Otherwise `num_get` reads an optional
sign and the digits after it: without a digit the value is 0, out of range
it saturates, and `eofbit` is set exactly when the scan reached the end of
the stream. -/
def extractInt (buf : Str) (old : Int) : Int × Bool :=
  match buf.dropWhile isSpace with
  | [] => (old, true)
  | c :: cs =>
    let sb := takeSign (c :: cs)
    let ds := sb.2.takeWhile isDigit
    let rest := sb.2.dropWhile isDigit
    let v : Int :=
      if ds = [] then 0
      else clampInt32 (if sb.1 then -(decVal ds : Int) else (decVal ds : Int))
    (v, rest.isEmpty)

/-- Models `atoi(s.c_str())`, as `(int) strtol(s, nullptr, 10)`: leading white space,
an optional sign and the digits after it; 0 without a digit. -/
def atoi (s : Str) : Int :=
  let sb := takeSign (s.dropWhile isSpace)
  let v : Int := (decVal (sb.2.takeWhile isDigit) : Int)
  wrapInt32 (clampInt64 (if sb.1 then -v else v))

/-! ## `ReadTokens` -/

/-- The body of the `while (std::getline(is, line))` loop of `ReadTokens` up
to the `insert`: from the line and the values that `sym` and `id` hold when
the iteration starts, the pair that is inserted; `none` for `exit(-1)`. -/
def readTokenLine (line : Str) (sym : Str) (id : Int) : Option (Str × Int) :=
  match extractString line with
  | none =>
    -- `iss >> sym` failed: `iss.eof()` holds and `sym` is unchanged
    some (str_blank, atoi sym)
  | some (sym', rest) =>
    if rest = [] then
      -- `iss.eof()` after `iss >> sym`
      some (str_blank, atoi sym')
    else
      match extractInt rest id with
      | (id', eof) => if !eof then none else some (sym', id')

/-- The loop of `ReadTokens` over the lines of the stream.  `sym` is moved
from by `insert({std::move(sym), id})`, which leaves it empty, so every
iteration starts with an empty `sym`; `id` keeps the value of the previous
iteration.  A fatal error reports the offending line. -/
def ReadTokensLoop : List Str → Str → Int → UMap Int → Except Str (UMap Int)
  | [], _, _, token2id => Except.ok token2id
  | line :: lines, sym, id, token2id =>
    match readTokenLine line sym id with
    | none => Except.error line
    | some (sym', id') => ReadTokensLoop lines [] id' (token2id.insert sym' id')

/-- Models `ReadTokens(std::istream &is)` on a stream holding the bytes `is`.  `id0`
is the indeterminate initial value of the local `int32_t id`. -/
def ReadTokens (id0 : Int) (is : Str) : Except Str (UMap Int) :=
  ReadTokensLoop (getLines is) [] id0 []

/-! ## `ConvertTokensToIds` and `InitLexicon` -/

/-- The loop of `ConvertTokensToIds`, with `ids` as the accumulator: the
result is empty as soon as a token is not in the table. -/
def ConvertTokensToIdsLoop (token2id : UMap Int) : List Str → List Int → List Int
  | [], ids => ids
  | s :: tokens, ids =>
    if token2id.count s = 0 then []
    else
      match token2id.find s with
      | some id => ConvertTokensToIdsLoop token2id tokens (ids ++ [id])
      | none => []

/-- Models `ConvertTokensToIds(token2id, tokens)`. -/
def ConvertTokensToIds (token2id : UMap Int) (tokens : List Str) : List Int :=
  ConvertTokensToIdsLoop token2id tokens []

/-- The body of the `while (std::getline(is, line))` loop of
`Lexicon::InitLexicon`, from the line, the value of the local `word` when the
iteration starts and the current `word2ids_`: `none` for the `return` on a
duplicated word, else the value of `word` after the iteration and the new
`word2ids_`.  `word` keeps its value when `iss >> word` fails, stays (in lower
case) when the line is skipped, and is left empty by `std::move(word)` after an
insertion. -/
def initLexiconStep (token2id : UMap Int) (line : Str) (word : Str)
    (word2ids : UMap (List Int)) : Option (Str × UMap (List Int)) :=
  let r : Str × List Str :=
    match extractString line with
    | none => (word, [])
    | some (w, rest) => (w, fields rest)
  let word' := ToLowerCase r.1
  if word2ids.count word' ≠ 0 then none
  else
    let ids := ConvertTokensToIds token2id r.2
    if ids = [] then some (word', word2ids)
    else some ([], word2ids.insert word' ids)

/-- The loop of `Lexicon::InitLexicon` over the lines of the stream: the
`word2ids_` that the function leaves. -/
def InitLexiconLoop (token2id : UMap Int) :
    List Str → Str → UMap (List Int) → UMap (List Int)
  | [], _, word2ids => word2ids
  | line :: lines, word, word2ids =>
    match initLexiconStep token2id line word word2ids with
    | none => word2ids
    | some (word', word2ids') => InitLexiconLoop token2id lines word' word2ids'

/-- The state (`word`, `word2ids_`) of the loop of `Lexicon::InitLexicon`
after it has processed all of `lines`; `none` when it returned on the way, so
that a line after them is not reached. -/
def InitLexiconRun (token2id : UMap Int) :
    List Str → Str → UMap (List Int) → Option (Str × UMap (List Int))
  | [], word, word2ids => some (word, word2ids)
  | line :: lines, word, word2ids =>
    match initLexiconStep token2id line word word2ids with
    | none => none
    | some (word', word2ids') => InitLexiconRun token2id lines word' word2ids'

/-- Models `Lexicon::InitLexicon(std::istream &is)`: the new `word2ids_`. -/
def InitLexicon (token2id : UMap Int) (word2ids : UMap (List Int)) (is : Str) :
    UMap (List Int) :=
  InitLexiconLoop token2id (getLines is) [] word2ids

/-! ## `InitPunctuations` -/

/-- Models `Lexicon::InitPunctuations`: the new `punctuations_`.
`SplitStringToVector(full, delim, omit_empty_strings, out)` is a parameter. -/
def InitPunctuations (SplitStringToVector : Str → Str → Bool → List Str)
    (punctuations_ : List Str) (punctuations : Str) : List Str :=
  let punctuation_list := SplitStringToVector punctuations str_blank false
  punctuation_list.foldl setInsert punctuations_

/-! ## The `Lexicon` object -/

/-- Models `enum class Language`. -/
inductive Language where
  | kEnglish
  | kChinese
  deriving DecidableEq, Repr

/-- The data members of `class Lexicon`. -/
structure Lexicon where
  word2ids_ : UMap (List Int)
  punctuations_ : List Str
  token2id_ : UMap Int
  language_ : Language
  debug_ : Bool

/-! ## `ConvertTextToTokenIdsChinese` -/

/-- The `for (const auto &w : words)` loop of `ConvertTextToTokenIdsChinese`,
with `ans` as the accumulator. -/
def chineseLoop (self : Lexicon) (sil : Int) : List Str → List Int → List Int
  | [], ans => ans
  | w :: ws, ans =>
    if setCount self.punctuations_ w ≠ 0 then
      chineseLoop self sil ws (ans ++ [sil])
    else if self.word2ids_.count w = 0 then
      chineseLoop self sil ws ans
    else
      match self.word2ids_.find w with
      | some token_ids => chineseLoop self sil ws (ans ++ token_ids)
      | none => chineseLoop self sil ws ans

/-- Models `Lexicon::ConvertTextToTokenIdsChinese`; `none` when `token2id_.at("sil")`
or `token2id_.at("eos")` throws.  The debug output is not part of the
result. -/
def Lexicon.ConvertTextToTokenIdsChinese (SplitUtf8 : Str → List Str)
    (self : Lexicon) (text : Str) : Option (List Int) :=
  let words := SplitUtf8 text
  match self.token2id_.find str_sil with
  | none => none
  | some sil =>
    match self.token2id_.find str_eos with
    | none => none
    | some eos =>
      let ans := chineseLoop self sil words [sil]
      some ((ans ++ [sil]) ++ [eos])

/-! ## `ConvertTextToTokenIdsEnglish` -/

/-- The `for (const auto &w : words)` loop of `ConvertTextToTokenIdsEnglish`;
`none` when `token2id_.at(w)` throws for a punctuation unit. -/
def englishLoop (self : Lexicon) (blank : Int) : List Str → List Int → Option (List Int)
  | [], ans => some ans
  | w :: ws, ans =>
    if setCount self.punctuations_ w ≠ 0 then
      match self.token2id_.find w with
      | none => none
      | some id => englishLoop self blank ws (ans ++ [id])
    else if self.word2ids_.count w = 0 then
      englishLoop self blank ws ans
    else
      match self.word2ids_.find w with
      | some token_ids => englishLoop self blank ws ((ans ++ token_ids) ++ [blank])
      | none => englishLoop self blank ws ans

/-- Models `Lexicon::ConvertTextToTokenIdsEnglish`; `none` when `token2id_.at(" ")`
or a `token2id_.at(w)` throws. -/
def Lexicon.ConvertTextToTokenIdsEnglish (SplitUtf8 : Str → List Str)
    (self : Lexicon) (_text : Str) : Option (List Int) :=
  let text := ToLowerCase _text
  let words := SplitUtf8 text
  match self.token2id_.find str_blank with
  | none => none
  | some blank =>
    match englishLoop self blank words [] with
    | none => none
    | some ans =>
      if ans ≠ [] then some (ans.take (ans.length - 1)) else some ans

/-- Models `Lexicon::ConvertTextToTokenIds`: the `switch` on `language_`; its
`default` branch cannot be reached with the two enumerators. -/
def Lexicon.ConvertTextToTokenIds (SplitUtf8 : Str → List Str)
    (self : Lexicon) (text : Str) : Option (List Int) :=
  match self.language_ with
  | Language.kEnglish => self.ConvertTextToTokenIdsEnglish SplitUtf8 text
  | Language.kChinese => self.ConvertTextToTokenIdsChinese SplitUtf8 text

/-! ## `InitLanguage` -/

/-- Models `Lexicon::InitLanguage`: the selected language, `none` for `exit(-1)`. -/
def InitLanguage (_lang : Str) : Option Language :=
  let lang := ToLowerCase _lang
  if lang = str_english then some Language.kEnglish
  else if lang = str_chinese then some Language.kChinese
  else none

/-! ## The constructor -/

/-- Models `Lexicon::Lexicon(lexicon, tokens, punctuations, language, debug)`, with
the contents of the two files in place of their names; `none` when
`InitLanguage` or `ReadTokens` exits. -/
def Lexicon.new (SplitStringToVector : Str → Str → Bool → List Str) (id0 : Int)
    (lexicon tokens punctuations language : Str) (debug : Bool) : Option Lexicon :=
  match InitLanguage language with
  | none => none
  | some lang =>
    match ReadTokens id0 tokens with
    | Except.error _ => none
    | Except.ok token2id =>
      some
        { word2ids_ := InitLexicon token2id [] lexicon
          punctuations_ := InitPunctuations SplitStringToVector [] punctuations
          token2id_ := token2id
          language_ := lang
          debug_ := debug }

/-! ## Specification-side definitions -/

/-- What one unit contributes in the Chinese path, in the words of the
specification: the silence id for a punctuation symbol (checked first),
nothing for a unit that is not in the lexicon, the unit's id sequence
otherwise. -/
def specChineseUnit (self : Lexicon) (sil : Int) (u : Str) : List Int :=
  if u ∈ self.punctuations_ then [sil]
  else
    match self.word2ids_.find u with
    | none => []
    | some ids => ids

/-- What one unit contributes in the English path, in the words of the
specification: its own token id for a punctuation symbol, nothing for a unit
that is not in the lexicon, the unit's id sequence followed by one blank
otherwise. -/
def specEnglishUnit (self : Lexicon) (blank : Int) (u : Str) : List Int :=
  if u ∈ self.punctuations_ then
    match self.token2id_.find u with
    | none => []
    | some id => [id]
  else
    match self.word2ids_.find u with
    | none => []
    | some ids => ids ++ [blank]

/-- The decimal numeral of `n`, most significant digit first, as ASCII
bytes. -/
def decimal (n : Nat) : Str :=
  if n = 0 then [48] else (Nat.digits 10 n).reverse.map (fun d => d + 48)

/-- The first white-space-separated field of a line (empty when there is
none). -/
def firstField (l : Str) : Str := (l.dropWhile isSpace).takeWhile notSpace

/-- A token line that defines the symbol `" "`: after its leading white space
no white space follows (an empty line, or a single field with nothing after
it). -/
def definesBlank (l : Str) : Bool := (l.dropWhile isSpace).all notSpace

/-- A unit that is neither a punctuation symbol nor a lexicon word. -/
def isOOV (self : Lexicon) (u : Str) : Bool :=
  decide (u ∉ self.punctuations_) && (self.word2ids_.find u).isNone

/-- An ASCII letter. -/
def isLetter (c : Nat) : Bool := (65 ≤ c && c ≤ 90) || (97 ≤ c && c ≤ 122)

/-- The current unit, when there is one. -/
def flushUnit (cur : Str) : List Str := if cur = [] then [] else [cur]

/-- The scan behind `segmentUnits`: `cur` is the unit being built. -/
def segmentGo : Str → Str → List Str
  | [], cur => flushUnit cur
  | c :: cs, cur =>
    if isLetter c then
      if cur.all isLetter then segmentGo cs (cur ++ [c])
      else flushUnit cur ++ segmentGo cs [c]
    else if 128 ≤ c ∧ c < 192 then segmentGo cs (cur ++ [c])
    else if isSpace c then flushUnit cur ++ segmentGo cs []
    else if c < 128 then flushUnit cur ++ [c] :: segmentGo cs []
    else flushUnit cur ++ segmentGo cs [c]

/-- Modelled from the spec: the segmenter of §4.4 (`SplitUtf8` of
`text-utils.cc`, which is not among the sources).  A maximal run of ASCII
letters is one unit, white space separates units, every other code point of
the UTF-8 text is a unit of its own.  It only instantiates the `SplitUtf8`
parameter in the examples; every general statement is for all segmenters. -/
def segmentUnits (text : Str) : List Str := segmentGo text []

/-- The text `你好,世界` in UTF-8. -/
def text_nihao : Str :=
  [228, 189, 160, 229, 165, 189, 44, 228, 184, 150, 231, 149, 140]

/-- A Chinese lexicon object: `sil = 0`, `eos = 1`, `你 → [2]`, `好 → [3]`,
`世 → [4]`, `界 → [5]`, punctuation set `{","}`. -/
def lex_zh : Lexicon :=
  { word2ids_ := [([228, 189, 160], [2]), ([229, 165, 189], [3]),
                  ([228, 184, 150], [4]), ([231, 149, 140], [5])]
    punctuations_ := [[44]]
    token2id_ := [(str_sil, 0), (str_eos, 1)]
    language_ := Language.kChinese
    debug_ := false }

/-- The text `Hi there.`. -/
def text_hi_there : Str := [72, 105, 32, 116, 104, 101, 114, 101, 46]

/-- An English lexicon object: blank id 9, `.` has token id 7, `hi → [1,2]`,
`there → [3,4,5]`, punctuation set `{"."}`. -/
def lex_en : Lexicon :=
  { word2ids_ := [([104, 105], [1, 2]), ([116, 104, 101, 114, 101], [3, 4, 5])]
    punctuations_ := [[46]]
    token2id_ := [(str_blank, 9), ([46], 7)]
    language_ := Language.kEnglish
    debug_ := false }

/-- The token stream `b 3\na 1\na 2`. -/
def tokens_dup : Str := [98, 32, 51, 10, 97, 32, 49, 10, 97, 32, 50]

/-- The token stream `a 1\n5\nb 2`. -/
def tokens_blank : Str := [97, 32, 49, 10, 53, 10, 98, 32, 50]

/-- The token stream `a 1\nx 1 2\nb 2`, whose second line has three fields. -/
def tokens_three : Str := [97, 32, 49, 10, 120, 32, 49, 32, 50, 10, 98, 32, 50]

/-- The token table `a ↦ 1`, `b ↦ 2`. -/
def table_ab : UMap Int := [([97], 1), ([98], 2)]

/-- The lexicon stream `x a\nHello a b\nhello b\nworld b`. -/
def lexicon_hello : Str :=
  [120, 32, 97, 10, 72, 101, 108, 108, 111, 32, 97, 32, 98, 10,
   104, 101, 108, 108, 111, 32, 98, 10, 119, 111, 114, 108, 100, 32, 98]

/-- The lexicon stream `x a\nbad a q\n\ny b`: its second line has the symbol
`q`, which `table_ab` does not have, and its third line is empty. -/
def lexicon_unres : Str :=
  [120, 32, 97, 10, 98, 97, 100, 32, 97, 32, 113, 10, 10, 121, 32, 98]

/-- The lexicon stream `x a\n\ny b`: `lexicon_unres` without its second line. -/
def lexicon_unres_without : Str := [120, 32, 97, 10, 10, 121, 32, 98]

/-- The lexicon stream `x a`. -/
def lexicon_x : Str := [120, 32, 97]

/-- The lexicon stream `hello a\nHello b\nworld b`, whose second line repeats
the word of the first. -/
def lexicon_dup3 : Str :=
  [104, 101, 108, 108, 111, 32, 97, 10, 72, 101, 108, 108, 111, 32, 98, 10,
   119, 111, 114, 108, 100, 32, 98]

/-- The lexicon stream `hello a`. -/
def lexicon_hello1 : Str := [104, 101, 108, 108, 111, 32, 97]

/-- The lexicon stream `x a\nhello\ny b`, whose second line is a word without
symbols. -/
def lexicon_nosym : Str :=
  [120, 32, 97, 10, 104, 101, 108, 108, 111, 10, 121, 32, 98]

/-- The lexicon stream `x a\ny b`: `lexicon_nosym` without its second line. -/
def lexicon_nosym_without : Str := [120, 32, 97, 10, 121, 32, 98]

/-- The lexicon object `lex_en` with a token table that has the blank but no
token for the punctuation symbol `.`. -/
def lex_en_nodot : Lexicon :=
  { word2ids_ := [([104, 105], [1, 2]), ([116, 104, 101, 114, 101], [3, 4, 5])]
    punctuations_ := [[46]]
    token2id_ := [(str_blank, 9)]
    language_ := Language.kEnglish
    debug_ := false }

/-- The text `HI THERE.`. -/
def text_hi_there_upper : Str := [72, 73, 32, 84, 72, 69, 82, 69, 46]

/-- The token table `sil ↦ 0`, `eos ↦ 1`, `a ↦ 2`, `b ↦ 3`. -/
def table_zh : UMap Int := [(str_sil, 0), (str_eos, 1), ([97], 2), ([98], 3)]

/-- The lexicon stream `你 a\n好 b a\n世 q`; `table_zh` has no symbol `q`. -/
def lexicon_zh : Str :=
  [228, 189, 160, 32, 97, 10, 229, 165, 189, 32, 98, 32, 97, 10,
   228, 184, 150, 32, 113]

/-- A Chinese lexicon object whose lexicon is built by `InitLexicon` from
`lexicon_zh` against its token table `table_zh`; punctuation set `{","}`. -/
def lex_built : Lexicon :=
  { word2ids_ := InitLexicon table_zh [] lexicon_zh
    punctuations_ := [[44]]
    token2id_ := table_zh
    language_ := Language.kChinese
    debug_ := false }

/-- The lexicon stream `Hello a b`. -/
def lexicon_Hello : Str := [72, 101, 108, 108, 111, 32, 97, 32, 98]

/-- The text `Hello`. -/
def text_Hello : Str := [72, 101, 108, 108, 111]

/-- A Chinese lexicon object whose lexicon is built by `InitLexicon` from the
stream `Hello a b` against `table_zh`; no punctuation. -/
def lex_Hello : Lexicon :=
  { word2ids_ := InitLexicon table_zh [] lexicon_Hello
    punctuations_ := []
    token2id_ := table_zh
    language_ := Language.kChinese
    debug_ := false }

/-- The pieces between the delimiter bytes of a string: a string with `n`
delimiter bytes has `n + 1` pieces, some of which may be empty. -/
def splitPieces (delim : Str) : Str → List Str
  | [] => [[]]
  | c :: cs =>
    if c ∈ delim then [] :: splitPieces delim cs
    else
      match splitPieces delim cs with
      | [] => [[c]]
      | p :: ps => (c :: p) :: ps

/-- Modelled from the spec: `SplitStringToVector` of `text-utils.cc`, which is
not among the sources.  §4.3 describes the call in `InitPunctuations` as
splitting the string on the delimiter and discarding empty tokens, so the
model returns the non-empty pieces between delimiter bytes, in order.  The
spec gives no meaning to the third argument (the call passes `false`), and the
model does not depend on it. -/
def specSplitStringToVector (full delim : Str) (_flag : Bool) : List Str :=
  (splitPieces delim full).filter (fun p => decide (p ≠ []))

/-- A non-empty maximal space-free substring of `s`: `w` is not empty, has no
space (byte 32), and occurs in `s` between the start or a space and the end
or a space. -/
def isSpaceFreeField (s w : Str) : Prop :=
  w ≠ [] ∧ (∀ c ∈ w, c ≠ 32) ∧
    ∃ a b, s = a ++ w ++ b ∧ (∀ x, a.getLast? = some x → x = 32)
      ∧ (∀ x, b.head? = some x → x = 32)

/-- The punctuation configuration string ` , A  .` (leading and doubled
spaces). -/
def punct_config : Str := [32, 44, 32, 65, 32, 32, 46]

end sherpa_onnx

namespace sherpa_onnx

/-! ## Map and set lemmas -/

theorem setCount_ne_zero_iff (s : List Str) (w : Str) : setCount s w ≠ 0 ↔ w ∈ s := by
  unfold setCount
  by_cases h : w ∈ s <;> simp [h]

theorem count_eq_zero_iff {ν : Type} (m : UMap ν) (k : Str) :
    m.count k = 0 ↔ m.find k = none := by
  unfold UMap.count
  cases h : m.find k <;> simp

/-! ## The conversion loops -/

theorem chineseLoop_eq (self : Lexicon) (sil : Int) (ws : List Str) (ans : List Int) :
    chineseLoop self sil ws ans = ans ++ (ws.map (specChineseUnit self sil)).flatten := by
  induction ws generalizing ans with
  | nil => simp [chineseLoop]
  | cons w ws ih =>
    by_cases hp : w ∈ self.punctuations_
    · simp [chineseLoop, specChineseUnit, setCount_ne_zero_iff, hp, ih]
    · cases hf : self.word2ids_.find w with
      | none =>
        simp [chineseLoop, specChineseUnit, setCount_ne_zero_iff, hp, hf,
          count_eq_zero_iff, ih]
      | some ids =>
        simp [chineseLoop, specChineseUnit, setCount_ne_zero_iff, hp, hf,
          count_eq_zero_iff, ih]

theorem englishLoop_eq (self : Lexicon) (blank : Int) (ws : List Str) (ans : List Int)
    (hp : ∀ u ∈ ws, u ∈ self.punctuations_ → self.token2id_.find u ≠ none) :
    englishLoop self blank ws ans
      = some (ans ++ (ws.map (specEnglishUnit self blank)).flatten) := by
  induction ws generalizing ans with
  | nil => simp [englishLoop]
  | cons w ws ih =>
    have ih' := fun a => ih a (fun u hu => hp u (List.mem_cons_of_mem _ hu))
    by_cases hw : w ∈ self.punctuations_
    · cases ht : self.token2id_.find w with
      | none => exact absurd ht (hp w (List.mem_cons_self _ _) hw)
      | some id =>
        simp [englishLoop, specEnglishUnit, setCount_ne_zero_iff, hw, ht, ih']
    · cases hf : self.word2ids_.find w with
      | none =>
        simp [englishLoop, specEnglishUnit, setCount_ne_zero_iff, hw, hf,
          count_eq_zero_iff, ih']
      | some ids =>
        simp [englishLoop, specEnglishUnit, setCount_ne_zero_iff, hw, hf,
          count_eq_zero_iff, ih']

/-- The final `if (!ans.empty()) ans.resize(ans.size() - 1)` removes the last
element, whatever it is. -/
theorem trim_eq_dropLast (ans : List Int) :
    (if ans ≠ [] then some (ans.take (ans.length - 1)) else some ans)
      = some ans.dropLast := by
  by_cases h : ans = []
  · simp [h]
  · simp [h, List.dropLast_eq_take]

theorem english_eq (SplitUtf8 : Str → List Str) (self : Lexicon) (text : Str)
    (blank : Int) (hblank : self.token2id_.find str_blank = some blank)
    (hp : ∀ u ∈ SplitUtf8 (ToLowerCase text), u ∈ self.punctuations_ →
      self.token2id_.find u ≠ none) :
    self.ConvertTextToTokenIdsEnglish SplitUtf8 text
      = some (((SplitUtf8 (ToLowerCase text)).map
          (specEnglishUnit self blank)).flatten).dropLast := by
  unfold Lexicon.ConvertTextToTokenIdsEnglish
  simp only [hblank, englishLoop_eq self blank _ [] hp, List.nil_append]
  exact trim_eq_dropLast _

theorem chinese_eq (SplitUtf8 : Str → List Str) (self : Lexicon)
    (text : Str) (sil eos : Int)
    (hsil : self.token2id_.find str_sil = some sil)
    (heos : self.token2id_.find str_eos = some eos) :
    self.ConvertTextToTokenIdsChinese SplitUtf8 text
      = some ([sil] ++ ((SplitUtf8 text).map (specChineseUnit self sil)).flatten
          ++ [sil, eos]) := by
  unfold Lexicon.ConvertTextToTokenIdsChinese
  simp [hsil, heos, chineseLoop_eq]

/-! ## C1 -/

/-- C1: Chinese conversion.  For every segmenter, every lexicon object whose
token table has `sil` and `eos`, and every text, the result is the silence id,
then what each unit of the segmented text contributes (the silence id for a
punctuation symbol, checked first; nothing for a unit outside the lexicon; the
lexicon's id sequence otherwise), then the silence id and the end-of-sequence
id. -/
theorem C1_chinese_conversion (SplitUtf8 : Str → List Str) (self : Lexicon)
    (text : Str) (sil eos : Int)
    (hsil : self.token2id_.find str_sil = some sil)
    (heos : self.token2id_.find str_eos = some eos) :
    self.ConvertTextToTokenIdsChinese SplitUtf8 text
      = some ([sil] ++ ((SplitUtf8 text).map (specChineseUnit self sil)).flatten
          ++ [sil, eos]) := by
  unfold Lexicon.ConvertTextToTokenIdsChinese
  simp [hsil, heos, chineseLoop_eq]

/-- C1, the example of the specification: `你好,世界` with punctuation `{","}`,
`sil = 0`, `eos = 1` and one id per character gives `[0, 2, 3, 0, 4, 5, 0, 1]`. -/
theorem C1_chinese_conversion_witness :
    segmentUnits text_nihao
        = [[228, 189, 160], [229, 165, 189], [44], [228, 184, 150], [231, 149, 140]]
      ∧ lex_zh.token2id_.find str_sil = some 0
      ∧ lex_zh.token2id_.find str_eos = some 1
      ∧ lex_zh.ConvertTextToTokenIdsChinese segmentUnits text_nihao
          = some [0, 2, 3, 0, 4, 5, 0, 1] :=
  ⟨by decide, by decide, by decide,
    (C1_chinese_conversion segmentUnits lex_zh text_nihao 0 1
      (by decide) (by decide)).trans (by decide)⟩

/-! ## C2 -/

/-- C2: English conversion.  For every segmenter, every lexicon object whose
token table has the blank symbol and a token for every punctuation unit of the
text, the result is the concatenation of what each unit of the segmented
lower-cased text contributes (its own token id for a punctuation symbol,
nothing for a unit outside the lexicon, the id sequence followed by a blank
otherwise) without its last element; in particular, when the last unit is a
punctuation symbol, the element removed is that symbol's token id. -/
theorem C2_english_conversion (SplitUtf8 : Str → List Str) (self : Lexicon)
    (text : Str) (blank : Int)
    (hblank : self.token2id_.find str_blank = some blank)
    (hp : ∀ u ∈ SplitUtf8 (ToLowerCase text), u ∈ self.punctuations_ →
      self.token2id_.find u ≠ none) :
    self.ConvertTextToTokenIdsEnglish SplitUtf8 text
        = some (((SplitUtf8 (ToLowerCase text)).map
            (specEnglishUnit self blank)).flatten).dropLast
      ∧ ∀ (us : List Str) (p : Str) (id : Int),
          SplitUtf8 (ToLowerCase text) = us ++ [p] → p ∈ self.punctuations_ →
          self.token2id_.find p = some id →
          (((SplitUtf8 (ToLowerCase text)).map
              (specEnglishUnit self blank)).flatten
            = (us.map (specEnglishUnit self blank)).flatten ++ [id])
          ∧ self.ConvertTextToTokenIdsEnglish SplitUtf8 text
            = some (us.map (specEnglishUnit self blank)).flatten := by
  refine ⟨english_eq SplitUtf8 self text blank hblank hp, ?_⟩
  intro us p id hus hpp hid
  have hflat : ((SplitUtf8 (ToLowerCase text)).map
      (specEnglishUnit self blank)).flatten
        = (us.map (specEnglishUnit self blank)).flatten ++ [id] := by
    rw [hus]
    simp [specEnglishUnit, hpp, hid]
  refine ⟨hflat, ?_⟩
  rw [english_eq SplitUtf8 self text blank hblank hp, hflat, List.dropLast_concat]

/-- C2 at `Hi there.`: the blank and the token of `.` are in the table, and
the trailing element that is removed is the id 7 of `.`. -/
theorem C2_english_conversion_witness :
    lex_en.token2id_.find str_blank = some 9
      ∧ lex_en.ConvertTextToTokenIdsEnglish segmentUnits text_hi_there
          = some [1, 2, 9, 3, 4, 5, 9] :=
  ⟨by decide,
    (C2_english_conversion segmentUnits lex_en text_hi_there 9 (by decide)
      (by decide)).1.trans (by decide)⟩

/-! ## C3 -/

/-- C3, as stated, fails at its own example: with blank id 9, `hi → [1,2]`,
`there → [3,4,5]` and token id 7 for `.`, the text `Hi there.` has the units
`hi`, `there`, `.` and the result is `[1,2,9,3,4,5,9]`, not `[1,2,9,3,4,5,7]`:
the blank after `there` stays and the id of `.` is the element removed. -/
theorem C3_counterexample :
    segmentUnits (ToLowerCase text_hi_there)
        = [[104, 105], [116, 104, 101, 114, 101], [46]]
      ∧ lex_en.ConvertTextToTokenIdsEnglish segmentUnits text_hi_there
          = some [1, 2, 9, 3, 4, 5, 9]
      ∧ lex_en.ConvertTextToTokenIdsEnglish segmentUnits text_hi_there
          ≠ some [1, 2, 9, 3, 4, 5, 7] := by
  decide

/-- C3, amended: when the last unit is a punctuation symbol directly preceded
by a lexicon word, the result starts with the tokens of the earlier units
followed by that word's id sequence and, immediately after it, the blank id
(the statement leaves open what, if anything, follows that blank). -/
theorem C3_blank_after_last_word (SplitUtf8 : Str → List Str) (self : Lexicon)
    (text : Str) (blank : Int) (us : List Str) (w p : Str) (ids : List Int)
    (hblank : self.token2id_.find str_blank = some blank)
    (hp : ∀ u ∈ SplitUtf8 (ToLowerCase text), u ∈ self.punctuations_ →
      self.token2id_.find u ≠ none)
    (hus : SplitUtf8 (ToLowerCase text) = us ++ [w, p])
    (hw : w ∉ self.punctuations_)
    (hids : self.word2ids_.find w = some ids)
    (hpp : p ∈ self.punctuations_) :
    ∃ tail : List Int,
      self.ConvertTextToTokenIdsEnglish SplitUtf8 text
        = some ((us.map (specEnglishUnit self blank)).flatten ++ ids ++ [blank]
            ++ tail) := by
  refine ⟨[], ?_⟩
  rw [english_eq SplitUtf8 self text blank hblank hp]
  have hpt : self.token2id_.find p ≠ none :=
    hp p (by rw [hus]; simp) hpp
  cases hid : self.token2id_.find p with
  | none => exact absurd hid hpt
  | some id =>
    have hflat : ((SplitUtf8 (ToLowerCase text)).map
        (specEnglishUnit self blank)).flatten
          = ((us.map (specEnglishUnit self blank)).flatten ++ ids ++ [blank])
              ++ [id] := by
      rw [hus]
      simp [specEnglishUnit, hpp, hid, hw, hids]
    rw [hflat, List.dropLast_concat]
    simp

/-- C3, amended, at `Hi there.`: the result starts with `[1,2,9,3,4,5,9]`. -/
theorem C3_blank_after_last_word_witness :
    ∃ tail : List Int,
      lex_en.ConvertTextToTokenIdsEnglish segmentUnits text_hi_there
        = some (([[104, 105]].map (specEnglishUnit lex_en 9)).flatten
            ++ [3, 4, 5] ++ [9] ++ tail) :=
  C3_blank_after_last_word segmentUnits lex_en text_hi_there 9 [[104, 105]]
    [116, 104, 101, 114, 101] [46] [3, 4, 5] (by decide) (by decide) (by decide)
    (by decide) (by decide) (by decide)

/-! ## C4 -/

theorem chineseLoop_filter (self : Lexicon) (sil : Int) (ws : List Str)
    (ans : List Int) :
    chineseLoop self sil (ws.filter (fun u => !isOOV self u)) ans
      = chineseLoop self sil ws ans := by
  induction ws generalizing ans with
  | nil => rfl
  | cons w ws ih =>
    by_cases hp : w ∈ self.punctuations_
    · have hoov : isOOV self w = false := by simp [isOOV, hp]
      simp only [List.filter_cons, hoov, Bool.not_false, if_true]
      simp [chineseLoop, setCount_ne_zero_iff, hp, ih]
    · cases hf : self.word2ids_.find w with
      | none =>
        have hoov : isOOV self w = true := by simp [isOOV, hp, hf]
        simp only [List.filter_cons, hoov, Bool.not_true]
        simp [chineseLoop, setCount_ne_zero_iff, hp, hf, count_eq_zero_iff, ih]
      | some ids =>
        have hoov : isOOV self w = false := by simp [isOOV, hp, hf]
        simp only [List.filter_cons, hoov, Bool.not_false, if_true]
        simp [chineseLoop, setCount_ne_zero_iff, hp, hf, count_eq_zero_iff, ih]

theorem englishLoop_filter (self : Lexicon) (blank : Int) (ws : List Str)
    (ans : List Int) :
    englishLoop self blank (ws.filter (fun u => !isOOV self u)) ans
      = englishLoop self blank ws ans := by
  induction ws generalizing ans with
  | nil => rfl
  | cons w ws ih =>
    by_cases hp : w ∈ self.punctuations_
    · have hoov : isOOV self w = false := by simp [isOOV, hp]
      simp only [List.filter_cons, hoov, Bool.not_false, if_true]
      cases ht : self.token2id_.find w with
      | none => simp [englishLoop, setCount_ne_zero_iff, hp, ht]
      | some id => simp [englishLoop, setCount_ne_zero_iff, hp, ht, ih]
    · cases hf : self.word2ids_.find w with
      | none =>
        have hoov : isOOV self w = true := by simp [isOOV, hp, hf]
        simp only [List.filter_cons, hoov, Bool.not_true]
        simp [englishLoop, setCount_ne_zero_iff, hp, hf, count_eq_zero_iff, ih]
      | some ids =>
        have hoov : isOOV self w = false := by simp [isOOV, hp, hf]
        simp only [List.filter_cons, hoov, Bool.not_false, if_true]
        simp [englishLoop, setCount_ne_zero_iff, hp, hf, count_eq_zero_iff, ih]

/-- C4: out-of-vocabulary units are transparent.  For every lexicon object,
every segmenter and every text, each conversion gives the same result (the
same ids, or the same failure) when the units that are neither punctuation
symbols nor lexicon words are removed from the segmented text before the
conversion loop runs. -/
theorem C4_oov_transparent (SplitUtf8 : Str → List Str) (self : Lexicon)
    (text : Str) :
    self.ConvertTextToTokenIdsChinese
        (fun t => (SplitUtf8 t).filter (fun u => !isOOV self u)) text
        = self.ConvertTextToTokenIdsChinese SplitUtf8 text
      ∧ self.ConvertTextToTokenIdsEnglish
          (fun t => (SplitUtf8 t).filter (fun u => !isOOV self u)) text
        = self.ConvertTextToTokenIdsEnglish SplitUtf8 text := by
  constructor
  · unfold Lexicon.ConvertTextToTokenIdsChinese
    simp only [chineseLoop_filter]
  · unfold Lexicon.ConvertTextToTokenIdsEnglish
    simp only [englishLoop_filter]

/-! ## C5 -/

/-- C5: empty input.  When the text segments into no units, the Chinese
conversion returns `[sil, sil, eos]` for every token table with `sil` and
`eos`, and the English conversion returns the empty sequence for every token
table with the blank symbol, whatever the lexicon and the punctuation set. -/
theorem C5_empty_input (SplitUtf8 : Str → List Str) (self : Lexicon) (text : Str) :
    (∀ sil eos : Int, SplitUtf8 text = [] →
        self.token2id_.find str_sil = some sil →
        self.token2id_.find str_eos = some eos →
        self.ConvertTextToTokenIdsChinese SplitUtf8 text = some [sil, sil, eos])
      ∧ (∀ blank : Int, SplitUtf8 (ToLowerCase text) = [] →
        self.token2id_.find str_blank = some blank →
        self.ConvertTextToTokenIdsEnglish SplitUtf8 text = some []) := by
  constructor
  · intro sil eos hu hsil heos
    unfold Lexicon.ConvertTextToTokenIdsChinese
    simp [hu, hsil, heos, chineseLoop]
  · intro blank hu hblank
    unfold Lexicon.ConvertTextToTokenIdsEnglish
    simp [hu, hblank, englishLoop]

/-- C5 at the empty text, which has no units. -/
theorem C5_empty_input_witness :
    segmentUnits [] = []
      ∧ lex_zh.ConvertTextToTokenIdsChinese segmentUnits [] = some [0, 0, 1]
      ∧ lex_en.ConvertTextToTokenIdsEnglish segmentUnits [] = some [] :=
  ⟨by decide,
    (C5_empty_input segmentUnits lex_zh []).1 0 1 (by decide) (by decide) (by decide),
    (C5_empty_input segmentUnits lex_en []).2 9 (by decide) (by decide)⟩

/-! ## C6 -/

theorem tolower_idem (c : Nat) : tolower (tolower c) = tolower c := by
  unfold tolower
  split_ifs <;> omega

theorem ToLowerCase_idem (s : Str) : ToLowerCase (ToLowerCase s) = ToLowerCase s := by
  simp [ToLowerCase, tolower_idem]

/-- C6: language selection.  For every configuration string, `InitLanguage`
selects English exactly when the ASCII-lowercased string is `english`, Chinese
exactly when it is `chinese`, and fails exactly when it is neither; the result
does not depend on the case of ASCII letters; and when it fails the
constructor yields no instance, whatever the other arguments are. -/
theorem C6_language_selection (s : Str) :
    (InitLanguage s = some Language.kEnglish ↔ ToLowerCase s = str_english)
      ∧ (InitLanguage s = some Language.kChinese ↔ ToLowerCase s = str_chinese)
      ∧ (InitLanguage s = none ↔
          ToLowerCase s ≠ str_english ∧ ToLowerCase s ≠ str_chinese)
      ∧ InitLanguage (ToLowerCase s) = InitLanguage s
      ∧ (InitLanguage s = none →
          ∀ (split : Str → Str → Bool → List Str) (id0 : Int)
            (lexicon tokens punctuations : Str) (debug : Bool),
            Lexicon.new split id0 lexicon tokens punctuations s debug = none) := by
  have hne : str_english ≠ str_chinese := by decide
  refine ⟨?_, ?_, ?_, ?_, ?_⟩
  · unfold InitLanguage
    by_cases h1 : ToLowerCase s = str_english
    · simp [h1]
    · by_cases h2 : ToLowerCase s = str_chinese <;> simp [h1, h2, hne.symm]
  · unfold InitLanguage
    by_cases h1 : ToLowerCase s = str_english
    · simp [h1, hne]
    · by_cases h2 : ToLowerCase s = str_chinese <;> simp [h1, h2, hne.symm]
  · unfold InitLanguage
    by_cases h1 : ToLowerCase s = str_english
    · simp [h1]
    · by_cases h2 : ToLowerCase s = str_chinese <;> simp [h1, h2, hne.symm]
  · unfold InitLanguage
    simp only [ToLowerCase_idem]
  · intro h split id0 lexicon tokens punctuations debug
    unfold Lexicon.new
    simp [h]

/-- C6 at `English` (selected), `CHINESE` (selected) and `french` (fatal). -/
theorem C6_language_selection_witness :
    InitLanguage [69, 110, 103, 108, 105, 115, 104] = some Language.kEnglish
      ∧ InitLanguage [67, 72, 73, 78, 69, 83, 69] = some Language.kChinese
      ∧ InitLanguage [102, 114, 101, 110, 99, 104] = none
      ∧ Lexicon.new (fun _ _ _ => []) 0 [] [] [] [102, 114, 101, 110, 99, 104] false
          = none :=
  ⟨(C6_language_selection [69, 110, 103, 108, 105, 115, 104]).1.2 (by decide),
    (C6_language_selection [67, 72, 73, 78, 69, 83, 69]).2.1.2 (by decide),
    (C6_language_selection [102, 114, 101, 110, 99, 104]).2.2.1.2 (by decide),
    (C6_language_selection [102, 114, 101, 110, 99, 104]).2.2.2.2 (by decide)
      (fun _ _ _ => []) 0 [] [] [] false⟩

/-! ## Lemmas on `find` and `insert` -/

theorem find_append_of_some {ν : Type} (m e : UMap ν) (k : Str) (x : ν)
    (h : m.find k = some x) : UMap.find (m ++ e) k = some x := by
  induction m with
  | nil => simp [UMap.find] at h
  | cons a m ih =>
    obtain ⟨k', v'⟩ := a
    by_cases hk : k' = k
    · simpa [UMap.find, hk] using h
    · simp only [List.cons_append, UMap.find, hk, if_false] at h ⊢
      exact ih h

theorem find_append_of_none {ν : Type} (m : UMap ν) (k : Str) (v : ν) (k' : Str)
    (h : m.find k' = none) :
    UMap.find (m ++ [(k, v)]) k' = if k = k' then some v else none := by
  induction m with
  | nil => simp [UMap.find]
  | cons a m ih =>
    obtain ⟨k₀, v₀⟩ := a
    by_cases hk : k₀ = k'
    · simp [UMap.find, hk] at h
    · simp only [List.cons_append, UMap.find, hk, if_false] at h ⊢
      exact ih h

theorem find_insert_self {ν : Type} (m : UMap ν) (k : Str) (v : ν)
    (h : m.find k = none) : (m.insert k v).find k = some v := by
  unfold UMap.insert
  rw [if_pos ((count_eq_zero_iff m k).2 h), find_append_of_none m k v k h]
  simp

theorem find_insert_of_some {ν : Type} (m : UMap ν) (k : Str) (v : ν) (k' : Str)
    (x : ν) (h : m.find k' = some x) : (m.insert k v).find k' = some x := by
  unfold UMap.insert
  split_ifs
  · exact find_append_of_some m _ k' x h
  · exact h

theorem find_insert_of_ne {ν : Type} (m : UMap ν) (k : Str) (v : ν) (k' : Str)
    (h : k ≠ k') : (m.insert k v).find k' = m.find k' := by
  unfold UMap.insert
  split_ifs
  · cases hf : m.find k' with
    | none => rw [find_append_of_none m k v k' hf]; simp [h]
    | some x => exact find_append_of_some m _ k' x hf
  · rfl

/-! ## Lemmas on the stream operations -/

theorem isSpace_of_isDigit (c : Nat) (h : isDigit c = true) : isSpace c = false := by
  simp only [isDigit, Bool.and_eq_true, decide_eq_true_eq] at h
  have h32 : (c == 32) = false := by
    simp only [beq_eq_false_iff_ne, ne_eq]
    omega
  have h13 : decide (c ≤ 13) = false := by
    simp only [decide_eq_false_iff_not]
    omega
  simp [isSpace, h32, h13]

theorem dropWhile_isSpace_head (l : Str) (c : Nat) (cs : Str)
    (h : l.dropWhile isSpace = c :: cs) : isSpace c = false := by
  have h0 := List.head_dropWhile_not isSpace l (by rw [h]; simp)
  simpa [h] using h0

/-- A line made of white space `ws`, a white-space-free field `w` and a rest
that is empty or starts with white space: `iss >> s` extracts `w` and leaves
the rest. -/
theorem extractString_field (ws w rest : Str)
    (hws : ∀ c ∈ ws, isSpace c = true) (hw : w ≠ [])
    (hw' : ∀ c ∈ w, isSpace c = false)
    (hrest : ∀ c ∈ rest.head?, isSpace c = true) :
    extractString (ws ++ w ++ rest) = some (w, rest) := by
  have hns : ∀ c ∈ w, notSpace c = true := fun c hc => by simp [notSpace, hw' c hc]
  have hrest1 : rest.takeWhile notSpace = [] := by
    cases rest with
    | nil => rfl
    | cons r rs =>
      have hr : isSpace r = true := hrest r (by simp)
      simp [notSpace, hr]
  have hrest2 : rest.dropWhile notSpace = rest := by
    cases rest with
    | nil => rfl
    | cons r rs =>
      have hr : isSpace r = true := hrest r (by simp)
      simp [notSpace, hr]
  cases w with
  | nil => exact absurd rfl hw
  | cons a w' =>
    have ha : isSpace a = false := hw' a (List.mem_cons_self _ _)
    have hd : (ws ++ (a :: w') ++ rest).dropWhile isSpace = (a :: w') ++ rest := by
      rw [List.append_assoc, List.dropWhile_append_of_pos hws]
      simp [ha]
    unfold extractString
    rw [hd]
    have e1 : ((a :: w') ++ rest).takeWhile notSpace = a :: w' := by
      rw [List.takeWhile_append_of_pos hns, hrest1, List.append_nil]
    have e2 : ((a :: w') ++ rest).dropWhile notSpace = rest := by
      rw [List.dropWhile_append_of_pos hns, hrest2]
    simp only [List.cons_append] at e1 e2 ⊢
    rw [e1, e2]

/-! ## Decimal numerals -/

theorem decVal_append_single (ds : Str) (d : Nat) :
    decVal (ds ++ [d]) = 10 * decVal ds + (d - 48) := by
  simp [decVal, List.foldl_append]

theorem decVal_digits (L : List Nat) :
    decVal (L.reverse.map (fun d => d + 48)) = Nat.ofDigits 10 L := by
  induction L with
  | nil => simp [decVal]
  | cons d L ih =>
    rw [List.reverse_cons, List.map_append, List.map_singleton, decVal_append_single, ih,
      Nat.ofDigits_cons]
    simp
    omega

theorem decVal_decimal (n : Nat) : decVal (decimal n) = n := by
  unfold decimal
  split_ifs with h
  · subst h
    simp [decVal]
  · rw [decVal_digits, Nat.ofDigits_digits]

theorem decimal_isDigit (n : Nat) : ∀ c ∈ decimal n, isDigit c = true := by
  intro c hc
  unfold decimal at hc
  split_ifs at hc with h
  · simp at hc
    subst hc
    decide
  · simp only [List.mem_map, List.mem_reverse] at hc
    obtain ⟨d, hd, rfl⟩ := hc
    have hlt : d < 10 := Nat.digits_lt_base (by norm_num) hd
    simp only [isDigit, Bool.and_eq_true, decide_eq_true_eq]
    omega

theorem decimal_ne_nil (n : Nat) : decimal n ≠ [] := by
  unfold decimal
  split_ifs with h
  · simp
  · simp [Nat.digits_ne_nil_iff_ne_zero, h]

theorem takeSign_of_digit (d : Nat) (ds : Str) (h : isDigit d = true) :
    takeSign (d :: ds) = (false, d :: ds) := by
  simp only [isDigit, Bool.and_eq_true, decide_eq_true_eq] at h
  unfold takeSign
  split
  · rename_i heq
    simp only [List.cons.injEq] at heq
    omega
  · rename_i heq
    simp only [List.cons.injEq] at heq
    omega
  · rfl

theorem clampInt32_of_lt (n : Nat) (h : n < 2147483648) : clampInt32 (n : Int) = n := by
  unfold clampInt32 INT32_MIN INT32_MAX
  split_ifs <;> omega

theorem atoi_decimal (n : Nat) (h : n < 2147483648) : atoi (decimal n) = n := by
  have hne := decimal_ne_nil n
  have hdig := decimal_isDigit n
  cases hd : decimal n with
  | nil => exact absurd hd hne
  | cons d ds =>
    rw [hd] at hdig
    have hd0 : isDigit d = true := hdig d (List.mem_cons_self _ _)
    have hs0 : isSpace d = false := isSpace_of_isDigit d hd0
    have hv : decVal (d :: ds) = n := by rw [← hd]; exact decVal_decimal n
    unfold atoi
    have e1 : (d :: ds).dropWhile isSpace = d :: ds := by simp [hs0]
    rw [e1, takeSign_of_digit d ds hd0]
    have e2 : (d :: ds).takeWhile isDigit = d :: ds :=
      List.takeWhile_eq_self_iff.2 (fun x hx => hdig x hx)
    simp only [e2, hv, Bool.false_eq_true, if_false]
    unfold wrapInt32 clampInt64
    split_ifs <;> omega

theorem extractInt_decimal (sep : Str) (n : Nat) (old : Int)
    (hsep : ∀ c ∈ sep, isSpace c = true) (h : n < 2147483648) :
    extractInt (sep ++ decimal n) old = ((n : Int), true) := by
  have hne := decimal_ne_nil n
  have hdig := decimal_isDigit n
  cases hd : decimal n with
  | nil => exact absurd hd hne
  | cons d ds =>
    rw [hd] at hdig
    have hd0 : isDigit d = true := hdig d (List.mem_cons_self _ _)
    have hs0 : isSpace d = false := isSpace_of_isDigit d hd0
    have hv : decVal (d :: ds) = n := by rw [← hd]; exact decVal_decimal n
    unfold extractInt
    have e1 : (sep ++ d :: ds).dropWhile isSpace = d :: ds := by
      rw [List.dropWhile_append_of_pos hsep]
      simp [hs0]
    rw [e1]
    have e2 : (d :: ds).takeWhile isDigit = d :: ds :=
      List.takeWhile_eq_self_iff.2 (fun x hx => hdig x hx)
    have e3 : (d :: ds).dropWhile isDigit = [] :=
      List.dropWhile_eq_nil_iff.2 (fun x hx => hdig x hx)
    simp only [takeSign_of_digit d ds hd0, e2, e3, hv, Bool.false_eq_true, if_false,
      List.isEmpty_nil, clampInt32_of_lt n h]
    simp

/-! ## Lemmas on `ReadTokens` -/

/-- The key that a token line inserts is `" "` when the line defines the
blank, and its first field otherwise. -/
theorem readTokenLine_key (l s : Str) (i : Int) (k : Str) (v : Int)
    (h : readTokenLine l s i = some (k, v)) :
    (k = str_blank ∧ definesBlank l = true)
      ∨ (k = firstField l ∧ definesBlank l = false) := by
  unfold readTokenLine extractString at h
  cases hd : l.dropWhile isSpace with
  | nil =>
    rw [hd] at h
    simp only [Option.some.injEq, Prod.mk.injEq] at h
    exact Or.inl ⟨h.1.symm, by simp [definesBlank, hd]⟩
  | cons c cs =>
    rw [hd] at h
    simp only at h
    by_cases hr : (c :: cs).dropWhile notSpace = []
    · rw [if_pos hr] at h
      simp only [Option.some.injEq, Prod.mk.injEq] at h
      refine Or.inl ⟨h.1.symm, ?_⟩
      unfold definesBlank
      rw [hd, List.all_eq_true]
      exact List.dropWhile_eq_nil_iff.1 hr
    · rw [if_neg hr] at h
      split_ifs at h with he
      simp only [Option.some.injEq, Prod.mk.injEq] at h
      refine Or.inr ⟨?_, ?_⟩
      · unfold firstField
        rw [hd]
        exact h.1.symm
      · unfold definesBlank
        rw [hd]
        cases hall : (c :: cs).all notSpace with
        | false => rfl
        | true =>
          exact absurd (List.dropWhile_eq_nil_iff.2 (List.all_eq_true.1 hall)) hr

/-- The first field of a line that does not define the blank is not `" "`. -/
theorem firstField_ne_blank (l : Str) (h : definesBlank l = false) :
    firstField l ≠ str_blank := by
  unfold definesBlank at h
  unfold firstField
  cases hd : l.dropWhile isSpace with
  | nil => simp [hd] at h
  | cons c cs =>
    have hc := dropWhile_isSpace_head l c cs hd
    have hn : notSpace c = true := by simp [notSpace, hc]
    rw [List.takeWhile_cons_of_pos hn]
    intro heq
    simp only [str_blank, List.cons.injEq] at heq
    rw [heq.1] at hc
    exact absurd hc (by decide)

/-- An entry of the table survives the rest of the loop: `insert` never
overwrites. -/
theorem ReadTokensLoop_persist (lines : List Str) (s : Str) (i : Int) (m t : UMap Int)
    (k : Str) (v : Int) (h : ReadTokensLoop lines s i m = Except.ok t)
    (hk : m.find k = some v) : t.find k = some v := by
  induction lines generalizing s i m with
  | nil =>
    simp only [ReadTokensLoop, Except.ok.injEq] at h
    rw [← h]
    exact hk
  | cons l lines ih =>
    unfold ReadTokensLoop at h
    cases hl : readTokenLine l s i with
    | none => simp [hl] at h
    | some kv =>
      obtain ⟨k', v'⟩ := kv
      rw [hl] at h
      exact ih [] v' _ h (find_insert_of_some m k' v' k v hk)

/-- The first line that inserts a key decides its id. -/
theorem ReadTokensLoop_first (pre : List Str) (l : Str) (post : List Str) (s : Str)
    (i : Int) (m t : UMap Int) (k : Str) (v : Int)
    (h : ReadTokensLoop (pre ++ l :: post) s i m = Except.ok t)
    (hm : m.find k = none)
    (hpre : ∀ l' ∈ pre, ∀ (s' : Str) (i' : Int) (k' : Str) (v' : Int),
      readTokenLine l' s' i' = some (k', v') → k' ≠ k)
    (hl : ∀ (s' : Str) (i' : Int), readTokenLine l s' i' = some (k, v)) :
    t.find k = some v := by
  induction pre generalizing s i m with
  | nil =>
    simp only [List.nil_append] at h
    unfold ReadTokensLoop at h
    rw [hl s i] at h
    exact ReadTokensLoop_persist post [] v _ t k v h (find_insert_self m k v hm)
  | cons a pre ih =>
    simp only [List.cons_append] at h
    unfold ReadTokensLoop at h
    cases ha : readTokenLine a s i with
    | none => simp [ha] at h
    | some kv =>
      obtain ⟨k', v'⟩ := kv
      rw [ha] at h
      have hne : k' ≠ k := hpre a (List.mem_cons_self _ _) s i k' v' ha
      refine ih [] v' _ h ?_ (fun l' hl' => hpre l' (List.mem_cons_of_mem _ hl'))
      rw [find_insert_of_ne m k' v' k hne]
      exact hm

/-- A two-field line `sym sep id` inserts `sym ↦ id`. -/
theorem readTokenLine_two_fields (sym sep : Str) (n : Nat) (s : Str) (i : Int)
    (hsym : sym ≠ []) (hsym' : ∀ c ∈ sym, isSpace c = false)
    (hsep : sep ≠ []) (hsep' : ∀ c ∈ sep, isSpace c = true)
    (hn : n < 2147483648) :
    readTokenLine (sym ++ sep ++ decimal n) s i = some (sym, (n : Int)) := by
  have hrest : ∀ c ∈ (sep ++ decimal n).head?, isSpace c = true := by
    cases sep with
    | nil => exact absurd rfl hsep
    | cons a sep' =>
      intro c hc
      simp only [List.cons_append, List.head?_cons, Option.mem_def, Option.some.injEq] at hc
      rw [← hc]
      exact hsep' a (List.mem_cons_self _ _)
  have hex : extractString (sym ++ sep ++ decimal n) = some (sym, sep ++ decimal n) := by
    have := extractString_field [] sym (sep ++ decimal n) (by simp) hsym hsym' hrest
    simpa [List.append_assoc] using this
  have hne : sep ++ decimal n ≠ [] := by
    cases sep with
    | nil => exact absurd rfl hsep
    | cons a sep' => simp
  unfold readTokenLine
  rw [hex]
  simp only [hne, if_false, extractInt_decimal sep n i hsep' hn]
  simp

/-- A line that is just a decimal numeral inserts `" " ↦ n`. -/
theorem readTokenLine_single (n : Nat) (s : Str) (i : Int) (hn : n < 2147483648) :
    readTokenLine (decimal n) s i = some (str_blank, (n : Int)) := by
  have hex : extractString (decimal n) = some (decimal n, []) := by
    have := extractString_field [] (decimal n) [] (by simp) (decimal_ne_nil n)
      (fun c hc => isSpace_of_isDigit c (decimal_isDigit n c hc)) (by simp)
    simpa using this
  unfold readTokenLine
  rw [hex]
  simp [atoi_decimal n hn]

/-! ## C7 -/

/-- C7, as stated, fails: the stream `b 3\na 1\na 2` parses without a fatal
error, its lines are `b 3`, `a 1` and `a 2`, and the table maps `a` to 1, the
id of the first occurrence, not to 2, the id of the last one. -/
theorem C7_counterexample :
    getLines tokens_dup = [[98, 32, 51], [97, 32, 49], [97, 32, 50]]
      ∧ ReadTokens 0 tokens_dup = Except.ok [([98], 3), ([97], 1)]
      ∧ ∃ t, ReadTokens 0 tokens_dup = Except.ok t ∧ t.find [97] = some 1
          ∧ t.find [97] ≠ some 2 :=
  ⟨by decide, by rfl, [([98], 3), ([97], 1)], by rfl, by decide, by decide⟩

/-- C7, amended: for every token stream that parses without a fatal error,
a two-field line `sym id` (a white-space-free symbol, white space, the decimal
numeral of an id below 2^31) whose symbol is not the first field of an earlier
line makes the table map `sym` to `id`, whatever lines follow: when the same
symbol appears on several lines the table holds the id of the first
occurrence. -/
theorem C7_first_occurrence_wins (id0 : Int) (is : Str) (t : UMap Int)
    (pre post : List Str) (sym sep : Str) (n : Nat)
    (hok : ReadTokens id0 is = Except.ok t)
    (hlines : getLines is = pre ++ (sym ++ sep ++ decimal n) :: post)
    (hsym : sym ≠ []) (hsym' : ∀ c ∈ sym, isSpace c = false)
    (hsep : sep ≠ []) (hsep' : ∀ c ∈ sep, isSpace c = true)
    (hn : n < 2147483648)
    (hfirst : ∀ l ∈ pre, firstField l ≠ sym) :
    t.find sym = some (n : Int) := by
  unfold ReadTokens at hok
  rw [hlines] at hok
  have hsb : sym ≠ str_blank := by
    intro h
    rw [h] at hsym'
    exact absurd (hsym' 32 (by simp [str_blank])) (by decide)
  refine ReadTokensLoop_first pre _ post [] id0 [] t sym n hok rfl ?_
    (fun s' i' => readTokenLine_two_fields sym sep n s' i' hsym hsym' hsep hsep' hn)
  intro l' hl' s' i' k' v' hkv
  rcases readTokenLine_key l' s' i' k' v' hkv with ⟨hk, _⟩ | ⟨hk, _⟩
  · rw [hk]
    exact fun h => hsb h.symm
  · rw [hk]
    exact hfirst l' hl'

/-- C7, amended, at the stream `b 3\na 1\na 2`: the line `a 1` is the first
with the symbol `a`, and the later line `a 2` does not change its id 1. -/
theorem C7_first_occurrence_wins_witness :
    firstField [98, 32, 51] ≠ [97]
      ∧ ∃ t, ReadTokens 0 tokens_dup = Except.ok t ∧ t.find [97] = some 1 :=
  ⟨by decide, [([98], 3), ([97], 1)], by rfl,
    C7_first_occurrence_wins 0 tokens_dup [([98], 3), ([97], 1)] [[98, 32, 51]]
      [[97, 32, 50]] [97] [32] 1
      (by rfl) (by simp [decimal]; decide) (by decide) (by decide) (by decide)
      (by decide) (by decide) (by decide)⟩

/-! ## C8 -/

/-- C8: a line that is exactly the decimal numeral of `n` (below 2^31, no
white space around it) defines the blank symbol: for every token stream that
parses without a fatal error, contains such a line and has no earlier line
defining `" "`, the table maps `" "` to `n` (a later line defining `" "` does
not change it, so in particular this holds when no other line defines it). -/
theorem C8_single_field_blank (id0 : Int) (is : Str) (t : UMap Int)
    (pre post : List Str) (n : Nat)
    (hok : ReadTokens id0 is = Except.ok t)
    (hlines : getLines is = pre ++ decimal n :: post)
    (hn : n < 2147483648)
    (hpre : ∀ l ∈ pre, definesBlank l = false) :
    t.find str_blank = some (n : Int) := by
  unfold ReadTokens at hok
  rw [hlines] at hok
  refine ReadTokensLoop_first pre _ post [] id0 [] t str_blank n hok rfl ?_
    (fun s' i' => readTokenLine_single n s' i' hn)
  intro l' hl' s' i' k' v' hkv
  rcases readTokenLine_key l' s' i' k' v' hkv with ⟨_, hb⟩ | ⟨hk, hb⟩
  · rw [hpre l' hl'] at hb
    exact absurd hb (by decide)
  · rw [hk]
    exact firstField_ne_blank l' hb

/-- C8 at the stream `a 1\n5\nb 2`: the table maps `" "` to 5. -/
theorem C8_single_field_blank_witness :
    ReadTokens 0 tokens_blank = Except.ok [([97], 1), ([32], 5), ([98], 2)]
      ∧ UMap.find [([97], (1 : Int)), ([32], 5), ([98], 2)] str_blank = some 5 :=
  ⟨by rfl,
    C8_single_field_blank 0 tokens_blank _ [[97, 32, 49]] [[98, 32, 50]] 5
      (by rfl) (by simp [decimal]; decide) (by decide) (by decide)⟩

/-! ## C9 -/

theorem extractString_length (buf w r : Str) (h : extractString buf = some (w, r)) :
    r.length < buf.length := by
  unfold extractString at h
  cases hd : buf.dropWhile isSpace with
  | nil => simp [hd] at h
  | cons c cs =>
    rw [hd] at h
    simp only [Option.some.injEq, Prod.mk.injEq] at h
    have hc := dropWhile_isSpace_head buf c cs hd
    have hn : notSpace c = true := by simp [notSpace, hc]
    rw [List.dropWhile_cons_of_pos hn] at h
    have h1 : r.length ≤ cs.length := by
      rw [← h.2]
      exact (List.dropWhile_sublist notSpace).length_le
    have h2 : (c :: cs).length ≤ buf.length := by
      rw [← hd]
      exact (List.dropWhile_sublist isSpace).length_le
    simp only [List.length_cons] at h2
    omega

/-- Once the iteration bound reaches the length of the buffer, `readFields`
does not depend on it. -/
theorem readFields_fuel (n m : Nat) (buf : Str) (hn : buf.length ≤ n)
    (hm : buf.length ≤ m) : readFields n buf = readFields m buf := by
  induction n generalizing m buf with
  | zero =>
    have hb : buf = [] := List.length_eq_zero.1 (Nat.le_zero.1 hn)
    subst hb
    cases m <;> simp [readFields, extractString]
  | succ n ih =>
    cases m with
    | zero =>
      have hb : buf = [] := List.length_eq_zero.1 (Nat.le_zero.1 hm)
      subst hb
      simp [readFields, extractString]
    | succ m =>
      unfold readFields
      cases he : extractString buf with
      | none => rfl
      | some wr =>
        obtain ⟨w, r⟩ := wr
        have hlt := extractString_length buf w r he
        simp only
        rw [ih m r (by omega) (by omega)]

/-- The loop `while (iss >> s)` unfolded once. -/
theorem fields_unfold (buf : Str) :
    fields buf =
      match extractString buf with
      | none => []
      | some (w, r) => w :: fields r := by
  cases hb : buf.length with
  | zero =>
    have hb' : buf = [] := List.length_eq_zero.1 hb
    subst hb'
    simp [fields, readFields, extractString]
  | succ n =>
    have h1 : fields buf = readFields (n + 1) buf := by
      unfold fields
      rw [hb]
    rw [h1]
    show (match extractString buf with
      | none => []
      | some (w, rest) => w :: readFields n rest) = _
    cases he : extractString buf with
    | none => rfl
    | some wr =>
      obtain ⟨w, r⟩ := wr
      have hlt := extractString_length buf w r he
      simp only
      unfold fields
      rw [readFields_fuel n r.length r (by omega) (Nat.le_refl _)]

theorem takeSign_mem (b : Str) (c : Nat) (hc : c ∈ b) (hs : isSpace c = true) :
    c ∈ (takeSign b).2 := by
  unfold takeSign
  split
  · rename_i r
    rcases List.mem_cons.1 hc with h | h
    · rw [h] at hs
      exact absurd hs (by decide)
    · exact h
  · rename_i r
    rcases List.mem_cons.1 hc with h | h
    · rw [h] at hs
      exact absurd hs (by decide)
    · exact h
  · exact hc

/-- When white space follows the start of the number, `iss >> id` does not
reach the end of the stream. -/
theorem extractInt_not_eof (buf : Str) (old : Int) (c : Nat) (cs : Str)
    (hd : buf.dropWhile isSpace = c :: cs)
    (hsp : ∃ x ∈ c :: cs, isSpace x = true) : (extractInt buf old).2 = false := by
  unfold extractInt
  rw [hd]
  simp only
  obtain ⟨x, hx, hxs⟩ := hsp
  have hmem := takeSign_mem (c :: cs) x hx hxs
  cases hr : (takeSign (c :: cs)).2.dropWhile isDigit with
  | nil =>
    have hall := List.dropWhile_eq_nil_iff.1 hr x hmem
    have := isSpace_of_isDigit x hall
    rw [hxs] at this
    exact absurd this (by decide)
  | cons a r => rfl

/-- A line with more than two fields is fatal, whatever `sym` and `id` hold. -/
theorem readTokenLine_three_fields (l s : Str) (i : Int) (h : 2 < (fields l).length) :
    readTokenLine l s i = none := by
  rw [fields_unfold] at h
  cases h1 : extractString l with
  | none => simp [h1] at h
  | some wr1 =>
    obtain ⟨w1, r1⟩ := wr1
    rw [h1] at h
    simp only [List.length_cons] at h
    rw [fields_unfold] at h
    cases h2 : extractString r1 with
    | none => simp [h2] at h
    | some wr2 =>
      obtain ⟨w2, r2⟩ := wr2
      rw [h2] at h
      simp only [List.length_cons] at h
      have hr2 : r2 ≠ [] := by
        intro he
        rw [he] at h
        simp [fields, readFields] at h
      have hr1 : r1 ≠ [] := by
        intro he
        rw [he] at h2
        simp [extractString] at h2
      unfold extractString at h2
      cases hd : r1.dropWhile isSpace with
      | nil => simp [hd] at h2
      | cons c cs =>
        rw [hd] at h2
        simp only [Option.some.injEq, Prod.mk.injEq] at h2
        have hsp : ∃ x ∈ c :: cs, isSpace x = true := by
          by_contra hcon
          push_neg at hcon
          have hall : ∀ x ∈ c :: cs, notSpace x = true := fun x hx => by
            have := hcon x hx
            simp only [Bool.not_eq_true] at this
            simp [notSpace, this]
          exact hr2 (h2.2 ▸ List.dropWhile_eq_nil_iff.2 hall)
        have heof := extractInt_not_eof r1 i c cs hd hsp
        unfold readTokenLine
        rw [h1]
        simp only [hr1, if_false]
        cases hx : extractInt r1 i with
        | mk v e =>
          rw [hx] at heof
          simp only at heof
          simp [heof]

/-- The loop of `ReadTokens` on a list of lines with a line of more than two
fields: it ends in a fatal error at one of the lines up to that line, and at
that very line when the lines before it parse on their own. -/
theorem ReadTokensLoop_three_fields (pre : List Str) (bad : Str) (post : List Str)
    (s : Str) (i : Int) (m : UMap Int) (h : 2 < (fields bad).length) :
    ∃ l, ReadTokensLoop (pre ++ bad :: post) s i m = Except.error l
      ∧ l ∈ pre ++ [bad]
      ∧ ((∃ t, ReadTokensLoop pre s i m = Except.ok t) → l = bad) := by
  induction pre generalizing s i m with
  | nil =>
    refine ⟨bad, ?_, by simp, fun _ => rfl⟩
    simp only [List.nil_append]
    unfold ReadTokensLoop
    rw [readTokenLine_three_fields bad s i h]
  | cons a pre ih =>
    cases ha : readTokenLine a s i with
    | none =>
      refine ⟨a, ?_, by simp, ?_⟩
      · simp only [List.cons_append]
        unfold ReadTokensLoop
        rw [ha]
      · rintro ⟨t, ht⟩
        unfold ReadTokensLoop at ht
        rw [ha] at ht
        simp at ht
    | some kv =>
      obtain ⟨k', v'⟩ := kv
      obtain ⟨l, hl1, hl2, hl3⟩ := ih [] v' (m.insert k' v')
      refine ⟨l, ?_, ?_, ?_⟩
      · simp only [List.cons_append]
        unfold ReadTokensLoop
        rw [ha]
        exact hl1
      · simp only [List.cons_append]
        exact List.mem_cons_of_mem _ hl2
      · rintro ⟨t, ht⟩
        unfold ReadTokensLoop at ht
        rw [ha] at ht
        exact hl3 ⟨t, ht⟩

/-- C9: a token stream with a line of more than two white-space-separated
fields is fatal: no table is returned, the error is raised at a line not
after that line, and at that very line whenever the lines before it parse on
their own; the content of the fields plays no role. -/
theorem C9_malformed_line_fatal (id0 : Int) (is : Str) (pre post : List Str)
    (bad : Str)
    (hlines : getLines is = pre ++ bad :: post)
    (hbad : 2 < (fields bad).length) :
    (∀ t, ReadTokens id0 is ≠ Except.ok t)
      ∧ (∃ l ∈ pre ++ [bad], ReadTokens id0 is = Except.error l)
      ∧ (∀ (is' : Str) (t' : UMap Int), getLines is' = pre →
          ReadTokens id0 is' = Except.ok t' →
          ReadTokens id0 is = Except.error bad) := by
  obtain ⟨l, hl1, hl2, hl3⟩ := ReadTokensLoop_three_fields pre bad post [] id0 [] hbad
  have herr : ReadTokens id0 is = Except.error l := by
    unfold ReadTokens
    rw [hlines]
    exact hl1
  refine ⟨?_, ⟨l, hl2, herr⟩, ?_⟩
  · intro t ht
    rw [herr] at ht
    cases ht
  · intro is' t' hpre hok
    unfold ReadTokens at hok
    rw [hpre] at hok
    rw [herr, hl3 ⟨t', hok⟩]

/-- C9 at the stream `a 1\nx 1 2\nb 2`: the fatal error is at `x 1 2`. -/
theorem C9_malformed_line_fatal_witness :
    fields [120, 32, 49, 32, 50] = [[120], [49], [50]]
      ∧ ReadTokens 0 tokens_three = Except.error [120, 32, 49, 32, 50] :=
  ⟨by decide,
    (C9_malformed_line_fatal 0 tokens_three [[97, 32, 49]] [[98, 32, 50]]
      [120, 32, 49, 32, 50] (by decide) (by decide)).2.2 [97, 32, 49]
      [([97], 1)] (by decide) (by rfl)⟩

/-! ## C10 -/

/-- When every token is in the table, `ConvertTokensToIds` appends the ids of
the tokens in order. -/
theorem ConvertTokensToIdsLoop_resolved (token2id : UMap Int) (syms : List Str)
    (ids acc : List Int) (h : syms.map token2id.find = ids.map some) :
    ConvertTokensToIdsLoop token2id syms acc = acc ++ ids := by
  induction syms generalizing ids acc with
  | nil =>
    cases ids with
    | nil => simp [ConvertTokensToIdsLoop]
    | cons a ids => simp at h
  | cons s syms ih =>
    cases ids with
    | nil => simp at h
    | cons a ids =>
      simp only [List.map_cons, List.cons.injEq] at h
      have hc : ¬ token2id.count s = 0 := by
        rw [count_eq_zero_iff, h.1]
        simp
      unfold ConvertTokensToIdsLoop
      rw [if_neg hc, h.1]
      simp only
      rw [ih ids (acc ++ [a]) h.2]
      simp

/-- The loop body on a line whose word is new and whose symbols all resolve:
the entry is inserted. -/
theorem initLexiconStep_resolved (token2id : UMap Int) (l word : Str)
    (syms : List Str) (ids : List Int) (w0 : Str) (m0 : UMap (List Int))
    (hfields : fields l = word :: syms) (hk : syms ≠ [])
    (hids : syms.map token2id.find = ids.map some)
    (hnew : m0.find (ToLowerCase word) = none) :
    initLexiconStep token2id l w0 m0
      = some ([], m0.insert (ToLowerCase word) ids) := by
  rw [fields_unfold] at hfields
  cases he : extractString l with
  | none => simp [he] at hfields
  | some wr =>
    obtain ⟨w, r⟩ := wr
    rw [he] at hfields
    simp only [List.cons.injEq] at hfields
    have hne : ids ≠ [] := by
      intro h0
      rw [h0] at hids
      simp only [List.map_nil, List.map_eq_nil_iff] at hids
      exact hk hids
    have hconv : ConvertTokensToIds token2id syms = ids := by
      unfold ConvertTokensToIds
      rw [ConvertTokensToIdsLoop_resolved token2id syms ids [] hids]
      simp
    have hcount : m0.count (ToLowerCase word) = 0 :=
      (count_eq_zero_iff m0 _).2 hnew
    unfold initLexiconStep
    rw [he]
    simp only [hfields.1, hfields.2, hcount, hconv, hne, ne_eq, not_true_eq_false,
      if_false]

/-- The loop body never changes an entry that is already in the lexicon. -/
theorem initLexiconStep_persist (token2id : UMap Int) (l w : Str)
    (m : UMap (List Int)) (w' : Str) (m' : UMap (List Int)) (k : Str) (v : List Int)
    (h : initLexiconStep token2id l w m = some (w', m'))
    (hk : m.find k = some v) : m'.find k = some v := by
  unfold initLexiconStep at h
  simp only at h
  split_ifs at h with h1 h2
  · simp only [Option.some.injEq, Prod.mk.injEq] at h
    rw [← h.2]
    exact hk
  · simp only [Option.some.injEq, Prod.mk.injEq] at h
    rw [← h.2]
    exact find_insert_of_some m _ _ k v hk

theorem InitLexiconLoop_persist (token2id : UMap Int) (lines : List Str) (w : Str)
    (m : UMap (List Int)) (k : Str) (v : List Int) (hk : m.find k = some v) :
    (InitLexiconLoop token2id lines w m).find k = some v := by
  induction lines generalizing w m with
  | nil => exact hk
  | cons l lines ih =>
    unfold InitLexiconLoop
    cases hs : initLexiconStep token2id l w m with
    | none => exact hk
    | some wm =>
      obtain ⟨w', m'⟩ := wm
      exact ih w' m' (initLexiconStep_persist token2id l w m w' m' k v hs hk)

/-- When the loop gets through `pre` without returning, the rest of the lines
is processed from the state it has reached. -/
theorem InitLexiconLoop_append (token2id : UMap Int) (pre rest : List Str) (w : Str)
    (m : UMap (List Int)) (w' : Str) (m' : UMap (List Int))
    (h : InitLexiconRun token2id pre w m = some (w', m')) :
    InitLexiconLoop token2id (pre ++ rest) w m = InitLexiconLoop token2id rest w' m' := by
  induction pre generalizing w m with
  | nil =>
    simp only [InitLexiconRun, Option.some.injEq, Prod.mk.injEq] at h
    rw [List.nil_append, h.1, h.2]
  | cons l pre ih =>
    unfold InitLexiconRun at h
    cases hs : initLexiconStep token2id l w m with
    | none => simp [hs] at h
    | some wm =>
      obtain ⟨w1, m1⟩ := wm
      rw [hs] at h
      rw [List.cons_append]
      simp only [InitLexiconLoop, hs]
      exact ih w1 m1 h

theorem InitLexiconRun_append (token2id : UMap Int) (pre rest : List Str) (w : Str)
    (m : UMap (List Int)) (w' : Str) (m' : UMap (List Int))
    (h : InitLexiconRun token2id pre w m = some (w', m')) :
    InitLexiconRun token2id (pre ++ rest) w m = InitLexiconRun token2id rest w' m' := by
  induction pre generalizing w m with
  | nil =>
    simp only [InitLexiconRun, Option.some.injEq, Prod.mk.injEq] at h
    rw [List.nil_append, h.1, h.2]
  | cons l pre ih =>
    unfold InitLexiconRun at h
    cases hs : initLexiconStep token2id l w m with
    | none => simp [hs] at h
    | some wm =>
      obtain ⟨w1, m1⟩ := wm
      rw [hs] at h
      rw [List.cons_append]
      simp only [InitLexiconRun, hs]
      exact ih w1 m1 h

/-- When the loop gets through `lines` without returning, the lexicon of the
state it reaches is the lexicon that the function leaves on these lines. -/
theorem InitLexiconRun_loop (token2id : UMap Int) (lines : List Str) (w : Str)
    (m : UMap (List Int)) (w' : Str) (m' : UMap (List Int))
    (h : InitLexiconRun token2id lines w m = some (w', m')) :
    InitLexiconLoop token2id lines w m = m' := by
  have := InitLexiconLoop_append token2id lines [] w m w' m' h
  simpa [InitLexiconLoop] using this

/-- C10: a resolved lexicon line.  For every token table and every lexicon
stream, a line `word s1 ... sk` with `k ≥ 1` that the loop reaches (it got
through the lines before it, arriving with the lexicon `m0`), whose
lower-cased word is not in `m0` and whose symbols are all in the token table
with ids `ids` (in source order): right after the line the lexicon maps the
lower-cased word to exactly `ids`, and so does the lexicon that `InitLexicon`
leaves at the end. -/
theorem C10_resolved_line (token2id : UMap Int) (word2ids : UMap (List Int))
    (is : Str) (pre post : List Str) (l word : Str) (syms : List Str)
    (ids : List Int) (w0 : Str) (m0 : UMap (List Int))
    (hlines : getLines is = pre ++ l :: post)
    (hfields : fields l = word :: syms)
    (hk : syms ≠ [])
    (hids : syms.map token2id.find = ids.map some)
    (hreach : InitLexiconRun token2id pre [] word2ids = some (w0, m0))
    (hnew : m0.find (ToLowerCase word) = none) :
    (∃ w1 m1, InitLexiconRun token2id (pre ++ [l]) [] word2ids = some (w1, m1)
        ∧ m1.find (ToLowerCase word) = some ids)
      ∧ (InitLexicon token2id word2ids is).find (ToLowerCase word) = some ids := by
  have hstep := initLexiconStep_resolved token2id l word syms ids w0 m0 hfields hk
    hids hnew
  have hfind : (m0.insert (ToLowerCase word) ids).find (ToLowerCase word) = some ids :=
    find_insert_self m0 _ ids hnew
  constructor
  · refine ⟨[], m0.insert (ToLowerCase word) ids, ?_, hfind⟩
    rw [InitLexiconRun_append token2id pre [l] [] word2ids w0 m0 hreach]
    simp [InitLexiconRun, hstep]
  · unfold InitLexicon
    rw [hlines, InitLexiconLoop_append token2id pre (l :: post) [] word2ids w0 m0 hreach]
    unfold InitLexiconLoop
    rw [hstep]
    exact InitLexiconLoop_persist token2id post [] _ _ ids hfind

/-- C10 at the stream `x a\nHello a b\nhello b\nworld b` with `a ↦ 1`,
`b ↦ 2`: the line `Hello a b` is reached with the lexicon `x ↦ [1]` and the
final lexicon maps `hello` to `[1, 2]`. -/
theorem C10_resolved_line_witness :
    fields [72, 101, 108, 108, 111, 32, 97, 32, 98]
        = [[72, 101, 108, 108, 111], [97], [98]]
      ∧ (InitLexicon table_ab [] lexicon_hello).find [104, 101, 108, 108, 111]
          = some [1, 2] :=
  ⟨by decide,
    (C10_resolved_line table_ab [] lexicon_hello [[120, 32, 97]]
      [[104, 101, 108, 108, 111, 32, 98], [119, 111, 114, 108, 100, 32, 98]]
      [72, 101, 108, 108, 111, 32, 97, 32, 98] [72, 101, 108, 108, 111]
      [[97], [98]] [1, 2] [] [([120], [1])]
      (by decide) (by decide) (by decide) (by decide) (by decide) (by decide)).2⟩

/-! ## C11 -/

/-- As soon as one token is not in the table, `ConvertTokensToIds` returns the
empty vector. -/
theorem ConvertTokensToIdsLoop_unresolved (token2id : UMap Int) (syms : List Str)
    (acc : List Int) (h : ∃ s ∈ syms, token2id.find s = none) :
    ConvertTokensToIdsLoop token2id syms acc = [] := by
  induction syms generalizing acc with
  | nil =>
    obtain ⟨s, hs, _⟩ := h
    simp at hs
  | cons a syms ih =>
    unfold ConvertTokensToIdsLoop
    cases ha : token2id.find a with
    | none => simp [(count_eq_zero_iff token2id a).2 ha]
    | some id =>
      have hc : ¬ token2id.count a = 0 := by
        rw [count_eq_zero_iff, ha]
        simp
      rw [if_neg hc]
      simp only
      apply ih
      obtain ⟨s, hs, hnone⟩ := h
      rcases List.mem_cons.1 hs with h1 | h1
      · rw [h1, ha] at hnone
        cases hnone
      · exact ⟨s, h1, hnone⟩

/-- The loop body on a line with an unresolved symbol and a new word: nothing
is inserted, and `word` keeps the lower-cased word of the line. -/
theorem initLexiconStep_unresolved (token2id : UMap Int) (l word : Str)
    (syms : List Str) (w0 : Str) (m0 : UMap (List Int))
    (hfields : fields l = word :: syms)
    (hbad : ∃ s ∈ syms, token2id.find s = none)
    (hnew : m0.find (ToLowerCase word) = none) :
    initLexiconStep token2id l w0 m0 = some (ToLowerCase word, m0) := by
  rw [fields_unfold] at hfields
  cases he : extractString l with
  | none => simp [he] at hfields
  | some wr =>
    obtain ⟨w, r⟩ := wr
    rw [he] at hfields
    simp only [List.cons.injEq] at hfields
    have hconv : ConvertTokensToIds token2id syms = [] := by
      unfold ConvertTokensToIds
      exact ConvertTokensToIdsLoop_unresolved token2id syms [] hbad
    have hcount : m0.count (ToLowerCase word) = 0 :=
      (count_eq_zero_iff m0 _).2 hnew
    unfold initLexiconStep
    rw [he]
    simp only [hfields.1, hfields.2, hcount, hconv, ne_eq, not_true_eq_false, if_false,
      if_true]

/-- The loop body on a line without any field, when the lower-cased stale
`word` is not a key: nothing changes but the case of `word`. -/
theorem initLexiconStep_of_none (token2id : UMap Int) (l w : Str)
    (m : UMap (List Int)) (he : extractString l = none)
    (h : m.find (ToLowerCase w) = none) :
    initLexiconStep token2id l w m = some (ToLowerCase w, m) := by
  have hcount : m.count (ToLowerCase w) = 0 := (count_eq_zero_iff m _).2 h
  unfold initLexiconStep
  rw [he]
  simp [hcount, ConvertTokensToIds, ConvertTokensToIdsLoop]

/-- The loop body on a line with a first field does not read the stale
`word`. -/
theorem initLexiconStep_of_some (token2id : UMap Int) (l w w' x r : Str)
    (m : UMap (List Int)) (he : extractString l = some (x, r)) :
    initLexiconStep token2id l w m = initLexiconStep token2id l w' m := by
  unfold initLexiconStep
  rw [he]

/-- The lexicon that the loop leaves does not depend on the stale `word` it
starts with, as long as that word (in lower case) is not a key. -/
theorem InitLexiconLoop_stale (token2id : UMap Int) (lines : List Str) (w w' : Str)
    (m : UMap (List Int)) (h : m.find (ToLowerCase w) = none)
    (h' : m.find (ToLowerCase w') = none) :
    InitLexiconLoop token2id lines w m = InitLexiconLoop token2id lines w' m := by
  induction lines generalizing w w' with
  | nil => rfl
  | cons l lines ih =>
    cases he : extractString l with
    | none =>
      simp only [InitLexiconLoop, initLexiconStep_of_none token2id l w m he h,
        initLexiconStep_of_none token2id l w' m he h']
      exact ih (ToLowerCase w) (ToLowerCase w')
        (by rw [ToLowerCase_idem]; exact h) (by rw [ToLowerCase_idem]; exact h')
    | some xr =>
      obtain ⟨x, r⟩ := xr
      simp only [InitLexiconLoop, initLexiconStep_of_some token2id l w w' x r m he]

theorem extractString_ne_nil (buf w r : Str) (h : extractString buf = some (w, r)) :
    w ≠ [] := by
  unfold extractString at h
  cases hd : buf.dropWhile isSpace with
  | nil => simp [hd] at h
  | cons c cs =>
    rw [hd] at h
    simp only [Option.some.injEq, Prod.mk.injEq] at h
    have hc := dropWhile_isSpace_head buf c cs hd
    have hn : notSpace c = true := by simp [notSpace, hc]
    rw [List.takeWhile_cons_of_pos hn] at h
    intro hw
    rw [hw] at h
    simp at h

theorem ToLowerCase_ne_nil (w : Str) (h : w ≠ []) : ToLowerCase w ≠ [] := by
  unfold ToLowerCase
  simpa using h

/-- After an iteration the stale `word` (in lower case) is not a key of the
lexicon, and neither is the empty string. -/
theorem initLexiconStep_stale (token2id : UMap Int) (l w : Str)
    (m : UMap (List Int)) (w' : Str) (m' : UMap (List Int))
    (h : initLexiconStep token2id l w m = some (w', m'))
    (hnil : m.find [] = none) :
    m'.find (ToLowerCase w') = none ∧ m'.find [] = none := by
  cases he : extractString l with
  | none =>
    unfold initLexiconStep at h
    rw [he] at h
    simp only [ConvertTokensToIds, ConvertTokensToIdsLoop, if_true] at h
    split_ifs at h with h1
    simp only [Option.some.injEq, Prod.mk.injEq] at h
    rw [← h.1, ← h.2, ToLowerCase_idem]
    refine ⟨?_, hnil⟩
    rw [← count_eq_zero_iff]
    simpa using h1
  | some xr =>
    obtain ⟨x, r⟩ := xr
    have hx : ToLowerCase x ≠ [] := ToLowerCase_ne_nil x (extractString_ne_nil l x r he)
    unfold initLexiconStep at h
    rw [he] at h
    simp only at h
    split_ifs at h with h1 h2
    · simp only [Option.some.injEq, Prod.mk.injEq] at h
      rw [← h.1, ← h.2, ToLowerCase_idem]
      refine ⟨?_, hnil⟩
      rw [← count_eq_zero_iff]
      simpa using h1
    · simp only [Option.some.injEq, Prod.mk.injEq] at h
      rw [← h.1, ← h.2]
      have hf : (m.insert (ToLowerCase x)
          (ConvertTokensToIds token2id (fields r))).find [] = none := by
        rw [find_insert_of_ne m _ _ [] hx]
        exact hnil
      exact ⟨hf, hf⟩

theorem InitLexiconRun_stale (token2id : UMap Int) (lines : List Str) (w : Str)
    (m : UMap (List Int)) (w' : Str) (m' : UMap (List Int))
    (h : InitLexiconRun token2id lines w m = some (w', m'))
    (hw : m.find (ToLowerCase w) = none) (hnil : m.find [] = none) :
    m'.find (ToLowerCase w') = none ∧ m'.find [] = none := by
  induction lines generalizing w m with
  | nil =>
    simp only [InitLexiconRun, Option.some.injEq, Prod.mk.injEq] at h
    rw [← h.1, ← h.2]
    exact ⟨hw, hnil⟩
  | cons l lines ih =>
    unfold InitLexiconRun at h
    cases hs : initLexiconStep token2id l w m with
    | none => simp [hs] at h
    | some wm =>
      obtain ⟨w1, m1⟩ := wm
      rw [hs] at h
      have h1 := initLexiconStep_stale token2id l w m w1 m1 hs hnil
      exact ih w1 m1 h h1.1 h1.2

/-- Once the loop has returned inside `pre`, the lines after `pre` play no
role. -/
theorem InitLexiconLoop_abort (token2id : UMap Int) (pre rest : List Str) (w : Str)
    (m : UMap (List Int)) (h : InitLexiconRun token2id pre w m = none) :
    InitLexiconLoop token2id (pre ++ rest) w m = InitLexiconLoop token2id pre w m := by
  induction pre generalizing w m with
  | nil => simp [InitLexiconRun] at h
  | cons l pre ih =>
    unfold InitLexiconRun at h
    rw [List.cons_append]
    cases hs : initLexiconStep token2id l w m with
    | none => simp only [InitLexiconLoop, hs]
    | some wm =>
      obtain ⟨w1, m1⟩ := wm
      rw [hs] at h
      simp only [InitLexiconLoop, hs]
      exact ih w1 m1 h

/-- C11: an unresolved lexicon line is dropped and loading continues.  For
every token table and every lexicon stream with lines `pre ++ [bad] ++ post`,
where `bad` is `word s1 ... sk` with a symbol that is not in the token table
and the lower-cased word is not a key of the lexicon built from `pre`:
when `bad` is reached with the lexicon `m0`, the lexicon after it is `m0`
again, and the lexicon built from the whole stream is the lexicon built from
the stream with lines `pre ++ post`. -/
theorem C11_unresolved_line_dropped (token2id : UMap Int) (is isWithout isPre : Str)
    (pre post : List Str) (bad word : Str) (syms : List Str)
    (hlines : getLines is = pre ++ bad :: post)
    (hwithout : getLines isWithout = pre ++ post)
    (hpre : getLines isPre = pre)
    (hfields : fields bad = word :: syms)
    (hbad : ∃ s ∈ syms, token2id.find s = none)
    (hnew : (InitLexicon token2id [] isPre).find (ToLowerCase word) = none) :
    (∀ w0 m0, InitLexiconRun token2id pre [] [] = some (w0, m0) →
        ∃ w1, InitLexiconRun token2id (pre ++ [bad]) [] [] = some (w1, m0))
      ∧ InitLexicon token2id [] is = InitLexicon token2id [] isWithout := by
  unfold InitLexicon at hnew ⊢
  rw [hpre] at hnew
  rw [hlines, hwithout]
  cases hrun : InitLexiconRun token2id pre [] [] with
  | none =>
    refine ⟨fun w0 m0 h => (by cases h), ?_⟩
    rw [InitLexiconLoop_abort token2id pre (bad :: post) [] [] hrun,
      InitLexiconLoop_abort token2id pre post [] [] hrun]
  | some wm =>
    obtain ⟨w0, m0⟩ := wm
    rw [InitLexiconRun_loop token2id pre [] [] w0 m0 hrun] at hnew
    have hstep := initLexiconStep_unresolved token2id bad word syms w0 m0 hfields hbad hnew
    constructor
    · intro w0' m0' h
      simp only [Option.some.injEq, Prod.mk.injEq] at h
      refine ⟨ToLowerCase word, ?_⟩
      rw [InitLexiconRun_append token2id pre [bad] [] [] w0 m0 hrun, ← h.2]
      simp [InitLexiconRun, hstep]
    · rw [InitLexiconLoop_append token2id pre (bad :: post) [] [] w0 m0 hrun,
        InitLexiconLoop_append token2id pre post [] [] w0 m0 hrun]
      simp only [InitLexiconLoop, hstep]
      have hst := InitLexiconRun_stale token2id pre [] [] w0 m0 hrun rfl rfl
      exact InitLexiconLoop_stale token2id post _ _ m0
        (by rw [ToLowerCase_idem]; exact hnew) hst.1

/-- C11 at the stream `x a\nbad a q\n\ny b` with the table `a ↦ 1`, `b ↦ 2`:
the line `bad a q` leaves no entry, and the lexicon is the one of
`x a\n\ny b`. -/
theorem C11_unresolved_line_dropped_witness :
    InitLexicon table_ab [] lexicon_unres = [([120], [1]), ([121], [2])]
      ∧ InitLexicon table_ab [] lexicon_unres
          = InitLexicon table_ab [] lexicon_unres_without :=
  ⟨by decide,
    (C11_unresolved_line_dropped table_ab lexicon_unres lexicon_unres_without
      lexicon_x [[120, 32, 97]] [[], [121, 32, 98]] [98, 97, 100, 32, 97, 32, 113]
      [98, 97, 100] [[97], [113]] (by decide) (by decide) (by decide) (by decide)
      (by decide) (by decide)).2⟩

/-! ## C12 -/

/-- The loop body on a line whose lower-cased word is already a key: the
function returns. -/
theorem initLexiconStep_dup (token2id : UMap Int) (l word : Str) (syms : List Str)
    (w0 : Str) (m0 : UMap (List Int)) (hfields : fields l = word :: syms)
    (hdup : m0.find (ToLowerCase word) ≠ none) :
    initLexiconStep token2id l w0 m0 = none := by
  rw [fields_unfold] at hfields
  cases he : extractString l with
  | none => simp [he] at hfields
  | some wr =>
    obtain ⟨w, r⟩ := wr
    rw [he] at hfields
    simp only [List.cons.injEq] at hfields
    have hcount : m0.count (ToLowerCase word) ≠ 0 := by
      rw [ne_eq, count_eq_zero_iff]
      exact hdup
    unfold initLexiconStep
    rw [he]
    simp only [hfields.1, hcount, ne_eq, not_false_eq_true, if_true]

/-- C12: a duplicated word aborts loading.  For every token table and every
lexicon stream with lines `pre ++ [l] ++ post`, if the lower-cased word of `l`
is already a key of the lexicon built from `pre`, the lexicon after loading
the whole stream is the lexicon built from `pre` alone: `l` is not inserted
and no line of `post` is loaded.  (This holds for every such line, hence for
the first one.) -/
theorem C12_duplicate_aborts (token2id : UMap Int) (word2ids : UMap (List Int))
    (is isPre : Str) (pre post : List Str) (l word : Str) (syms : List Str)
    (hlines : getLines is = pre ++ l :: post)
    (hpre : getLines isPre = pre)
    (hfields : fields l = word :: syms)
    (hdup : (InitLexicon token2id word2ids isPre).find (ToLowerCase word) ≠ none) :
    InitLexicon token2id word2ids is = InitLexicon token2id word2ids isPre := by
  unfold InitLexicon at hdup ⊢
  rw [hpre] at hdup ⊢
  rw [hlines]
  cases hrun : InitLexiconRun token2id pre [] word2ids with
  | none => exact InitLexiconLoop_abort token2id pre (l :: post) [] word2ids hrun
  | some wm =>
    obtain ⟨w0, m0⟩ := wm
    have hm0 := InitLexiconRun_loop token2id pre [] word2ids w0 m0 hrun
    rw [hm0] at hdup ⊢
    rw [InitLexiconLoop_append token2id pre (l :: post) [] word2ids w0 m0 hrun]
    simp only [InitLexiconLoop, initLexiconStep_dup token2id l word syms w0 m0 hfields hdup]

/-- C12 at the three-line stream `hello a\nHello b\nworld b`: the second line
repeats the word of the first, `hello` keeps `[1]` and `world` is absent. -/
theorem C12_duplicate_aborts_witness :
    InitLexicon table_ab [] lexicon_dup3 = [([104, 101, 108, 108, 111], [1])]
      ∧ (InitLexicon table_ab [] lexicon_dup3).find [119, 111, 114, 108, 100] = none
      ∧ InitLexicon table_ab [] lexicon_dup3 = InitLexicon table_ab [] lexicon_hello1 :=
  ⟨by decide, by decide,
    C12_duplicate_aborts table_ab [] lexicon_dup3 lexicon_hello1
      [[104, 101, 108, 108, 111, 32, 97]] [[119, 111, 114, 108, 100, 32, 98]]
      [72, 101, 108, 108, 111, 32, 98] [72, 101, 108, 108, 111] [[98]]
      (by decide) (by decide) (by decide) (by decide)⟩

/-! ## C13 -/

/-- C13: missing reserved symbols are fatal at query time.  For every
segmenter, lexicon object and text: the Chinese conversion fails when the
token table lacks `sil` or lacks `eos`, the English conversion fails when it
lacks the blank symbol, and the Chinese conversion succeeds whenever `sil` and
`eos` are both present. -/
theorem C13_missing_reserved_symbols (SplitUtf8 : Str → List Str) (self : Lexicon)
    (text : Str) :
    ((self.token2id_.find str_sil = none ∨ self.token2id_.find str_eos = none) →
        self.ConvertTextToTokenIdsChinese SplitUtf8 text = none)
      ∧ (self.token2id_.find str_blank = none →
        self.ConvertTextToTokenIdsEnglish SplitUtf8 text = none)
      ∧ (∀ sil eos : Int, self.token2id_.find str_sil = some sil →
        self.token2id_.find str_eos = some eos →
        ∃ out, self.ConvertTextToTokenIdsChinese SplitUtf8 text = some out) := by
  refine ⟨?_, ?_, ?_⟩
  · intro h
    unfold Lexicon.ConvertTextToTokenIdsChinese
    rcases h with h | h
    · simp [h]
    · cases hs : self.token2id_.find str_sil with
      | none => simp
      | some sil => simp [h]
  · intro h
    unfold Lexicon.ConvertTextToTokenIdsEnglish
    simp [h]
  · intro sil eos hsil heos
    unfold Lexicon.ConvertTextToTokenIdsChinese
    simp [hsil, heos]

/-- C13 at the empty text: `lex_en` has no `sil`, `lex_zh` has no blank but
has `sil` and `eos`. -/
theorem C13_missing_reserved_symbols_witness :
    lex_en.ConvertTextToTokenIdsChinese segmentUnits [] = none
      ∧ lex_zh.ConvertTextToTokenIdsEnglish segmentUnits [] = none
      ∧ ∃ out, lex_zh.ConvertTextToTokenIdsChinese segmentUnits text_nihao = some out :=
  ⟨(C13_missing_reserved_symbols segmentUnits lex_en []).1 (Or.inl (by decide)),
    (C13_missing_reserved_symbols segmentUnits lex_zh []).2.1 (by decide),
    (C13_missing_reserved_symbols segmentUnits lex_zh text_nihao).2.2 0 1
      (by decide) (by decide)⟩

/-! ## C15 -/

/-- C15, as stated, fails: the second line of `x a\nhello\ny b` is the word
`hello` without symbols, `hello` is not yet in the lexicon, and the lexicon
that is built has no entry for `hello` (in particular not the empty
sequence). -/
theorem C15_counterexample :
    getLines lexicon_nosym
        = [[120, 32, 97], [104, 101, 108, 108, 111], [121, 32, 98]]
      ∧ fields [104, 101, 108, 108, 111] = [[104, 101, 108, 108, 111]]
      ∧ (InitLexicon table_ab [] lexicon_x).find [104, 101, 108, 108, 111] = none
      ∧ InitLexicon table_ab [] lexicon_nosym = [([120], [1]), ([121], [2])]
      ∧ (InitLexicon table_ab [] lexicon_nosym).find [104, 101, 108, 108, 111]
          ≠ some [] := by
  decide

/-- The loop body on a line with a new word for which `ConvertTokensToIds`
returns the empty vector: the line is skipped. -/
theorem initLexiconStep_skipped (token2id : UMap Int) (l word : Str)
    (syms : List Str) (w0 : Str) (m0 : UMap (List Int))
    (hfields : fields l = word :: syms)
    (hconv : ConvertTokensToIds token2id syms = [])
    (hnew : m0.find (ToLowerCase word) = none) :
    initLexiconStep token2id l w0 m0 = some (ToLowerCase word, m0) := by
  rw [fields_unfold] at hfields
  cases he : extractString l with
  | none => simp [he] at hfields
  | some wr =>
    obtain ⟨w, r⟩ := wr
    rw [he] at hfields
    simp only [List.cons.injEq] at hfields
    have hcount : m0.count (ToLowerCase word) = 0 :=
      (count_eq_zero_iff m0 _).2 hnew
    unfold initLexiconStep
    rw [he]
    simp only [hfields.1, hfields.2, hcount, hconv, ne_eq, not_true_eq_false, if_false,
      if_true]

/-- C15, amended: a lexicon line that consists of a word and no symbols, and
whose lower-cased word is not yet in the lexicon `m0` with which the line is
reached, inserts no entry: the lexicon after the line is `m0` again, and the
lexicon built from the whole stream is the one built from the stream without
that line. -/
theorem C15_zero_symbol_line_skipped (token2id : UMap Int) (is isWithout : Str)
    (pre post : List Str) (l word w0 : Str) (m0 : UMap (List Int))
    (hlines : getLines is = pre ++ l :: post)
    (hwithout : getLines isWithout = pre ++ post)
    (hfields : fields l = [word])
    (hreach : InitLexiconRun token2id pre [] [] = some (w0, m0))
    (hnew : m0.find (ToLowerCase word) = none) :
    (∃ w1, InitLexiconRun token2id (pre ++ [l]) [] [] = some (w1, m0))
      ∧ InitLexicon token2id [] is = InitLexicon token2id [] isWithout := by
  have hstep := initLexiconStep_skipped token2id l word [] w0 m0 hfields rfl hnew
  constructor
  · refine ⟨ToLowerCase word, ?_⟩
    rw [InitLexiconRun_append token2id pre [l] [] [] w0 m0 hreach]
    simp [InitLexiconRun, hstep]
  · unfold InitLexicon
    rw [hlines, hwithout,
      InitLexiconLoop_append token2id pre (l :: post) [] [] w0 m0 hreach,
      InitLexiconLoop_append token2id pre post [] [] w0 m0 hreach]
    simp only [InitLexiconLoop, hstep]
    have hst := InitLexiconRun_stale token2id pre [] [] w0 m0 hreach rfl rfl
    exact InitLexiconLoop_stale token2id post _ _ m0
      (by rw [ToLowerCase_idem]; exact hnew) hst.1

/-- C15, amended, at the stream `x a\nhello\ny b`: the lexicon is the one of
`x a\ny b`. -/
theorem C15_zero_symbol_line_skipped_witness :
    InitLexicon table_ab [] lexicon_nosym = InitLexicon table_ab [] lexicon_nosym_without :=
  (C15_zero_symbol_line_skipped table_ab lexicon_nosym lexicon_nosym_without
    [[120, 32, 97]] [[121, 32, 98]] [104, 101, 108, 108, 111] [104, 101, 108, 108, 111]
    [] [([120], [1])] (by decide) (by decide) (by decide) (by decide) (by decide)).2

/-! ## C17 -/

/-- C17: the English conversion is insensitive to ASCII letter case.
`tolower` maps the bytes `A`..`Z` to `a`..`z` and leaves every other byte
(all bytes from 0x80 included) unchanged, `ToLowerCase` applies it to each
byte and is idempotent, the English conversion of a text is the one of its
lower-cased form, and two texts with the same lower-cased form have the same
conversion. -/
theorem C17_english_case_insensitive (SplitUtf8 : Str → List Str) (self : Lexicon)
    (text : Str) :
    (∀ c : Nat, 65 ≤ c → c ≤ 90 → tolower c = c + 32)
      ∧ (∀ c : Nat, (c < 65 ∨ 90 < c) → tolower c = c)
      ∧ ToLowerCase text = text.map tolower
      ∧ ToLowerCase (ToLowerCase text) = ToLowerCase text
      ∧ self.ConvertTextToTokenIdsEnglish SplitUtf8 (ToLowerCase text)
          = self.ConvertTextToTokenIdsEnglish SplitUtf8 text
      ∧ (∀ text' : Str, ToLowerCase text' = ToLowerCase text →
          self.ConvertTextToTokenIdsEnglish SplitUtf8 text'
            = self.ConvertTextToTokenIdsEnglish SplitUtf8 text) := by
  refine ⟨?_, ?_, rfl, ToLowerCase_idem text, ?_, ?_⟩
  · intro c h1 h2
    unfold tolower
    rw [if_pos ⟨h1, h2⟩]
  · intro c h
    unfold tolower
    rw [if_neg (by omega)]
  · unfold Lexicon.ConvertTextToTokenIdsEnglish
    simp only [ToLowerCase_idem]
  · intro text' h
    unfold Lexicon.ConvertTextToTokenIdsEnglish
    simp only [h]

/-- C17 at `HI THERE.` and `Hi there.`, which differ in letter case only. -/
theorem C17_english_case_insensitive_witness :
    ToLowerCase text_hi_there_upper = ToLowerCase text_hi_there
      ∧ lex_en.ConvertTextToTokenIdsEnglish segmentUnits text_hi_there_upper
          = lex_en.ConvertTextToTokenIdsEnglish segmentUnits text_hi_there :=
  ⟨by decide,
    (C17_english_case_insensitive segmentUnits lex_en text_hi_there).2.2.2.2.2
      text_hi_there_upper (by decide)⟩

/-! ## C18 -/

/-- The English loop throws exactly when a punctuation unit has no token. -/
theorem englishLoop_ne_none_iff (self : Lexicon) (blank : Int) (ws : List Str)
    (ans : List Int) :
    englishLoop self blank ws ans ≠ none
      ↔ ∀ u ∈ ws, u ∈ self.punctuations_ → self.token2id_.find u ≠ none := by
  constructor
  · intro h
    induction ws generalizing ans with
    | nil => intro u hu; simp at hu
    | cons w ws ih =>
      intro u hu hup
      by_cases hw : w ∈ self.punctuations_
      · cases ht : self.token2id_.find w with
        | none =>
          exact absurd (by simp [englishLoop, setCount_ne_zero_iff, hw, ht]) h
        | some id =>
          rcases List.mem_cons.1 hu with h1 | h1
          · rw [h1, ht]
            simp
          · have h2 : englishLoop self blank ws (ans ++ [id]) ≠ none := by
              simpa [englishLoop, setCount_ne_zero_iff, hw, ht] using h
            exact ih (ans ++ [id]) h2 u h1 hup
      · rcases List.mem_cons.1 hu with h1 | h1
        · rw [h1] at hup
          exact absurd hup hw
        · cases hf : self.word2ids_.find w with
          | none =>
            have h2 : englishLoop self blank ws ans ≠ none := by
              simpa [englishLoop, setCount_ne_zero_iff, hw, hf, count_eq_zero_iff] using h
            exact ih ans h2 u h1 hup
          | some ids =>
            have h2 : englishLoop self blank ws ((ans ++ ids) ++ [blank]) ≠ none := by
              simpa [englishLoop, setCount_ne_zero_iff, hw, hf, count_eq_zero_iff] using h
            exact ih _ h2 u h1 hup
  · intro h
    rw [englishLoop_eq self blank ws ans h]
    simp

/-- C18: the English conversion succeeds exactly when the token table has the
blank symbol and a token for every unit of the segmented lower-cased text
that is a punctuation symbol; a punctuation unit without a token makes the
query fail. -/
theorem C18_english_failure_condition (SplitUtf8 : Str → List Str) (self : Lexicon)
    (text : Str) :
    (self.ConvertTextToTokenIdsEnglish SplitUtf8 text ≠ none
        ↔ (self.token2id_.find str_blank ≠ none
            ∧ ∀ u ∈ SplitUtf8 (ToLowerCase text), u ∈ self.punctuations_ →
                self.token2id_.find u ≠ none))
      ∧ (∀ u ∈ SplitUtf8 (ToLowerCase text), u ∈ self.punctuations_ →
          self.token2id_.find u = none →
          self.ConvertTextToTokenIdsEnglish SplitUtf8 text = none) := by
  have main : self.ConvertTextToTokenIdsEnglish SplitUtf8 text ≠ none
      ↔ (self.token2id_.find str_blank ≠ none
          ∧ ∀ u ∈ SplitUtf8 (ToLowerCase text), u ∈ self.punctuations_ →
              self.token2id_.find u ≠ none) := by
    unfold Lexicon.ConvertTextToTokenIdsEnglish
    cases hb : self.token2id_.find str_blank with
    | none => simp
    | some blank =>
      simp only [ne_eq, not_false_eq_true, true_and, reduceCtorEq]
      rw [← englishLoop_ne_none_iff self blank (SplitUtf8 (ToLowerCase text)) []]
      cases hl : englishLoop self blank (SplitUtf8 (ToLowerCase text)) [] with
      | none => simp
      | some ans =>
        simp only [ne_eq, not_false_eq_true, reduceCtorEq, iff_true]
        split_ifs <;> simp
  refine ⟨main, ?_⟩
  intro u hu hup hnone
  by_contra hc
  exact (main.1 hc).2 u hu hup hnone

/-- C18 at `Hi there.` with a token table that has the blank but no token for
the punctuation symbol `.`: the query fails. -/
theorem C18_english_failure_condition_witness :
    lex_en_nodot.token2id_.find str_blank = some 9
      ∧ lex_en_nodot.ConvertTextToTokenIdsEnglish segmentUnits text_hi_there = none
      ∧ lex_en.ConvertTextToTokenIdsEnglish segmentUnits text_hi_there ≠ none :=
  ⟨by decide,
    (C18_english_failure_condition segmentUnits lex_en_nodot text_hi_there).2 [46]
      (by decide) (by decide) (by decide),
    (C18_english_failure_condition segmentUnits lex_en text_hi_there).1.2
      ⟨by decide, by decide⟩⟩

/-! ## C16 -/

/-- The result of `ConvertTokensToIds` is empty, or it is the accumulator
followed by the table's id of every token, in order. -/
theorem ConvertTokensToIdsLoop_cases (token2id : UMap Int) (syms : List Str)
    (acc : List Int) :
    ConvertTokensToIdsLoop token2id syms acc = []
      ∨ ∃ ids, syms.map token2id.find = ids.map some
          ∧ ConvertTokensToIdsLoop token2id syms acc = acc ++ ids := by
  induction syms generalizing acc with
  | nil => exact Or.inr ⟨[], rfl, by simp [ConvertTokensToIdsLoop]⟩
  | cons s syms ih =>
    unfold ConvertTokensToIdsLoop
    cases hs : token2id.find s with
    | none => simp [(count_eq_zero_iff token2id s).2 hs]
    | some id =>
      have hc : ¬ token2id.count s = 0 := by
        rw [count_eq_zero_iff, hs]
        simp
      rw [if_neg hc]
      simp only
      rcases ih (acc ++ [id]) with h | ⟨ids, h1, h2⟩
      · exact Or.inl h
      · refine Or.inr ⟨id :: ids, ?_, ?_⟩
        · simp [h1, hs]
        · rw [h2]
          simp

theorem mem_insert {ν : Type} (m : UMap ν) (k : Str) (v : ν) (e : Str × ν)
    (h : e ∈ m.insert k v) : e ∈ m ∨ e = (k, v) := by
  unfold UMap.insert at h
  split_ifs at h
  · simpa using h
  · exact Or.inl h

theorem mem_of_find {ν : Type} (m : UMap ν) (k : Str) (v : ν)
    (h : m.find k = some v) : (k, v) ∈ m := by
  induction m with
  | nil => simp [UMap.find] at h
  | cons a m ih =>
    obtain ⟨k', v'⟩ := a
    by_cases hk : k' = k
    · simp only [UMap.find, hk, if_true, Option.some.injEq] at h
      rw [hk, h]
      exact List.mem_cons_self _ _
    · simp only [UMap.find, hk, if_false] at h
      exact List.mem_cons_of_mem _ (ih h)

/-- An entry of the lexicon after one iteration was there before, or it was
inserted by this line: its key is the lower-cased word of the line and its
ids are the table's ids of the symbols of the line, in order. -/
theorem initLexiconStep_entry (token2id : UMap Int) (l w : Str)
    (m : UMap (List Int)) (w' : Str) (m' : UMap (List Int))
    (h : initLexiconStep token2id l w m = some (w', m'))
    (e : Str × List Int) (he : e ∈ m') :
    e ∈ m ∨ ∃ word syms, fields l = word :: syms ∧ e.1 = ToLowerCase word
      ∧ syms.map token2id.find = e.2.map some := by
  cases hx : extractString l with
  | none =>
    unfold initLexiconStep at h
    rw [hx] at h
    simp only [ConvertTokensToIds, ConvertTokensToIdsLoop, if_true] at h
    split_ifs at h with h1
    simp only [Option.some.injEq, Prod.mk.injEq] at h
    rw [← h.2] at he
    exact Or.inl he
  | some xr =>
    obtain ⟨x, r⟩ := xr
    have hf : fields l = x :: fields r := by
      rw [fields_unfold l, hx]
    unfold initLexiconStep at h
    rw [hx] at h
    simp only at h
    split_ifs at h with h1 h2
    · simp only [Option.some.injEq, Prod.mk.injEq] at h
      rw [← h.2] at he
      exact Or.inl he
    · simp only [Option.some.injEq, Prod.mk.injEq] at h
      rw [← h.2] at he
      rcases mem_insert m _ _ e he with h3 | h3
      · exact Or.inl h3
      · refine Or.inr ⟨x, fields r, hf, by rw [h3], ?_⟩
        rw [h3]
        simp only
        unfold ConvertTokensToIds at h2 ⊢
        rcases ConvertTokensToIdsLoop_cases token2id (fields r) [] with h4 | ⟨ids, h4, h5⟩
        · exact absurd h4 h2
        · rw [h5, List.nil_append]
          exact h4

/-- Every entry of the lexicon that the loop leaves was there at the start or
was inserted by one of the lines. -/
theorem InitLexiconLoop_entry (token2id : UMap Int) (lines : List Str) (w : Str)
    (m : UMap (List Int)) (e : Str × List Int)
    (he : e ∈ InitLexiconLoop token2id lines w m) :
    e ∈ m ∨ ∃ l ∈ lines, ∃ word syms, fields l = word :: syms
      ∧ e.1 = ToLowerCase word ∧ syms.map token2id.find = e.2.map some := by
  induction lines generalizing w m with
  | nil => exact Or.inl he
  | cons l lines ih =>
    unfold InitLexiconLoop at he
    cases hs : initLexiconStep token2id l w m with
    | none =>
      rw [hs] at he
      exact Or.inl he
    | some wm =>
      obtain ⟨w1, m1⟩ := wm
      rw [hs] at he
      rcases ih w1 m1 he with h1 | ⟨l', hl', word, syms, h2⟩
      · rcases initLexiconStep_entry token2id l w m w1 m1 hs e h1 with h3 | ⟨word, syms, h3⟩
        · exact Or.inl h3
        · exact Or.inr ⟨l, List.mem_cons_self _ _, word, syms, h3⟩
      · exact Or.inr ⟨l', List.mem_cons_of_mem _ hl', word, syms, h2⟩

/-- An id of a pointwise lookup is the table's id of one of the symbols. -/
theorem lookup_id_of_mem (token2id : UMap Int) (syms : List Str) (ids : List Int)
    (h : syms.map token2id.find = ids.map some) (id : Int) (hid : id ∈ ids) :
    ∃ s ∈ syms, token2id.find s = some id := by
  have h1 : some id ∈ ids.map some := List.mem_map.2 ⟨id, hid, rfl⟩
  rw [← h] at h1
  obtain ⟨s, hs, hs'⟩ := List.mem_map.1 h1
  exact ⟨s, hs, hs'⟩

/-- C16: the lexicon invariant.  For every token table and every lexicon
stream, after each processed line (the first `k` lines, for every `k`, also
when the loop returned on a duplicate among them) and after loading, every
stored entry was inserted by one of the processed lines: its key is the
lower-cased word of that line, its id sequence is the pointwise token-table
lookup of the symbols of that line, and so every id in it is the table's id
of a symbol in the table. -/
theorem C16_lexicon_invariant (token2id : UMap Int) (is : Str) :
    (∀ (k : Nat) (w : Str) (ids : List Int),
        (w, ids) ∈ InitLexiconLoop token2id ((getLines is).take k) [] [] →
        (∃ l ∈ (getLines is).take k, ∃ word syms, fields l = word :: syms
            ∧ w = ToLowerCase word ∧ syms.map token2id.find = ids.map some)
          ∧ ∀ id ∈ ids, ∃ s, token2id.find s = some id)
      ∧ (∀ (w : Str) (ids : List Int), (w, ids) ∈ InitLexicon token2id [] is →
        (∃ l ∈ getLines is, ∃ word syms, fields l = word :: syms
            ∧ w = ToLowerCase word ∧ syms.map token2id.find = ids.map some)
          ∧ ∀ id ∈ ids, ∃ s, token2id.find s = some id) := by
  have key : ∀ (lines : List Str) (w : Str) (ids : List Int),
      (w, ids) ∈ InitLexiconLoop token2id lines [] [] →
      (∃ l ∈ lines, ∃ word syms, fields l = word :: syms
          ∧ w = ToLowerCase word ∧ syms.map token2id.find = ids.map some)
        ∧ ∀ id ∈ ids, ∃ s, token2id.find s = some id := by
    intro lines w ids h
    rcases InitLexiconLoop_entry token2id lines [] [] (w, ids) h with h1 | h1
    · simp at h1
    · obtain ⟨l, hl, word, syms, h2, h3, h4⟩ := h1
      refine ⟨⟨l, hl, word, syms, h2, h3, h4⟩, ?_⟩
      intro id hid
      obtain ⟨s, _, hs⟩ := lookup_id_of_mem token2id syms ids h4 id hid
      exact ⟨s, hs⟩
  exact ⟨fun k w ids h => key _ w ids h, fun w ids h => key _ w ids h⟩

/-- C16 at the stream `你 a\n好 b a\n世 q` against `sil ↦ 0`, `eos ↦ 1`,
`a ↦ 2`, `b ↦ 3`: the lexicon is `你 ↦ [2]`, `好 ↦ [3, 2]`, and the ids of
`好` are ids of the table. -/
theorem C16_lexicon_invariant_witness :
    InitLexicon table_zh [] lexicon_zh
        = [([228, 189, 160], [2]), ([229, 165, 189], [3, 2])]
      ∧ ∀ id ∈ ([3, 2] : List Int), ∃ s, table_zh.find s = some id :=
  ⟨by decide,
    ((C16_lexicon_invariant table_zh lexicon_zh).2 [229, 165, 189] [3, 2]
      (by decide)).2⟩

/-! ## C19 -/

theorem specChineseUnit_mem (self : Lexicon) (sil : Int) (P : Int → Prop)
    (hsil : P sil)
    (hlex : ∀ w ids, self.word2ids_.find w = some ids → ∀ id ∈ ids, P id)
    (u : Str) : ∀ id ∈ specChineseUnit self sil u, P id := by
  intro id hid
  unfold specChineseUnit at hid
  split_ifs at hid with hp
  · simp only [List.mem_singleton] at hid
    rw [hid]
    exact hsil
  · cases hf : self.word2ids_.find u with
    | none => simp [hf] at hid
    | some ids =>
      rw [hf] at hid
      exact hlex u ids hf id hid

theorem specEnglishUnit_mem (self : Lexicon) (blank : Int) (P : Int → Prop)
    (hblank : P blank)
    (htok : ∀ w id, self.token2id_.find w = some id → P id)
    (hlex : ∀ w ids, self.word2ids_.find w = some ids → ∀ id ∈ ids, P id)
    (u : Str) : ∀ id ∈ specEnglishUnit self blank u, P id := by
  intro id hid
  unfold specEnglishUnit at hid
  split_ifs at hid with hp
  · cases ht : self.token2id_.find u with
    | none => simp [ht] at hid
    | some t =>
      rw [ht] at hid
      simp only [List.mem_singleton] at hid
      rw [hid]
      exact htok u t ht
  · cases hf : self.word2ids_.find u with
    | none => simp [hf] at hid
    | some ids =>
      rw [hf] at hid
      rcases List.mem_append.1 hid with h1 | h1
      · exact hlex u ids hf id h1
      · simp only [List.mem_singleton] at h1
        rw [h1]
        exact hblank

theorem mem_flatten_map (f : Str → List Int) (P : Int → Prop) (us : List Str)
    (h : ∀ u, ∀ id ∈ f u, P id) : ∀ id ∈ (us.map f).flatten, P id := by
  intro id hid
  obtain ⟨l, hl, hidl⟩ := List.mem_flatten.1 hid
  obtain ⟨u, _, hu⟩ := List.mem_map.1 hl
  rw [← hu] at hidl
  exact h u id hidl

/-- The ids stored by `InitLexicon` on the empty lexicon are ids of the token
table. -/
theorem InitLexicon_ids_in_table (token2id : UMap Int) (is : Str) (w : Str)
    (ids : List Int) (h : (InitLexicon token2id [] is).find w = some ids) :
    ∀ id ∈ ids, ∃ s, token2id.find s = some id := by
  intro id hid
  have hmem := mem_of_find _ w ids h
  unfold InitLexicon at hmem
  rcases InitLexiconLoop_entry token2id (getLines is) [] [] (w, ids) hmem with h1 | h1
  · simp at h1
  · obtain ⟨l, _, word, syms, _, _, h4⟩ := h1
    obtain ⟨s, _, hs⟩ := lookup_id_of_mem token2id syms ids h4 id hid
    exact ⟨s, hs⟩

/-- C19: every id that a query returns is an id of the token table.  For
every lexicon object whose lexicon was built by `InitLexicon` against its
token table, every segmenter and every text on which the conversion
succeeds (the Chinese one, the English one, and `ConvertTextToTokenIds`,
which dispatches to them), each element of the result is the token table's id
of some symbol; ids are integers of the model, so the widening to 64 bits
keeps the value. -/
theorem C19_output_ids_in_table (SplitUtf8 : Str → List Str) (self : Lexicon)
    (is text : Str) (out : List Int)
    (hlex : self.word2ids_ = InitLexicon self.token2id_ [] is) :
    (self.ConvertTextToTokenIdsChinese SplitUtf8 text = some out →
        ∀ id ∈ out, ∃ s, self.token2id_.find s = some id)
      ∧ (self.ConvertTextToTokenIdsEnglish SplitUtf8 text = some out →
        ∀ id ∈ out, ∃ s, self.token2id_.find s = some id)
      ∧ (self.ConvertTextToTokenIds SplitUtf8 text = some out →
        ∀ id ∈ out, ∃ s, self.token2id_.find s = some id) := by
  have hL : ∀ w ids, self.word2ids_.find w = some ids →
      ∀ id ∈ ids, ∃ s, self.token2id_.find s = some id := by
    intro w ids h
    rw [hlex] at h
    exact InitLexicon_ids_in_table self.token2id_ is w ids h
  have hT : ∀ w id, self.token2id_.find w = some id →
      ∃ s, self.token2id_.find s = some id := fun w id h => ⟨w, h⟩
  have hzh : self.ConvertTextToTokenIdsChinese SplitUtf8 text = some out →
      ∀ id ∈ out, ∃ s, self.token2id_.find s = some id := by
    intro h
    cases hs : self.token2id_.find str_sil with
    | none => simp [Lexicon.ConvertTextToTokenIdsChinese, hs] at h
    | some sil =>
      cases he : self.token2id_.find str_eos with
      | none => simp [Lexicon.ConvertTextToTokenIdsChinese, hs, he] at h
      | some eos =>
        rw [chinese_eq SplitUtf8 self text sil eos hs he] at h
        simp only [Option.some.injEq] at h
        intro id hid
        rw [← h] at hid
        simp only [List.mem_append, List.mem_singleton, List.mem_cons,
          List.not_mem_nil, or_false] at hid
        rcases hid with (h1 | h1) | h1 | h1
        · rw [h1]
          exact hT _ _ hs
        · exact mem_flatten_map (specChineseUnit self sil) _ _
            (specChineseUnit_mem self sil _ (hT _ _ hs) hL) id h1
        · rw [h1]
          exact hT _ _ hs
        · rw [h1]
          exact hT _ _ he
  have hen : self.ConvertTextToTokenIdsEnglish SplitUtf8 text = some out →
      ∀ id ∈ out, ∃ s, self.token2id_.find s = some id := by
    intro h
    have hne : self.ConvertTextToTokenIdsEnglish SplitUtf8 text ≠ none := by
      rw [h]
      simp
    cases hb : self.token2id_.find str_blank with
    | none => simp [Lexicon.ConvertTextToTokenIdsEnglish, hb] at h
    | some blank =>
      have hp : ∀ u ∈ SplitUtf8 (ToLowerCase text), u ∈ self.punctuations_ →
          self.token2id_.find u ≠ none := by
        intro u hu hup hnone
        apply hne
        unfold Lexicon.ConvertTextToTokenIdsEnglish
        rw [hb]
        simp only
        have hl : englishLoop self blank (SplitUtf8 (ToLowerCase text)) [] = none := by
          by_contra hc
          exact (englishLoop_ne_none_iff self blank _ []).1 hc u hu hup hnone
        rw [hl]
      rw [english_eq SplitUtf8 self text blank hb hp] at h
      simp only [Option.some.injEq] at h
      intro id hid
      rw [← h] at hid
      exact mem_flatten_map (specEnglishUnit self blank) _ _
        (specEnglishUnit_mem self blank _ (hT _ _ hb) hT hL) id
        (List.mem_of_mem_dropLast hid)
  refine ⟨hzh, hen, ?_⟩
  intro h
  unfold Lexicon.ConvertTextToTokenIds at h
  cases hl : self.language_ with
  | kEnglish =>
    rw [hl] at h
    exact hen h
  | kChinese =>
    rw [hl] at h
    exact hzh h

/-- C19 at `你好,世界` with a lexicon built from `你 a\n好 b a\n世 q` against
`sil ↦ 0`, `eos ↦ 1`, `a ↦ 2`, `b ↦ 3`: the result `[0, 2, 3, 2, 0, 0, 1]` has
ids of the table only. -/
theorem C19_output_ids_in_table_witness :
    lex_built.ConvertTextToTokenIds segmentUnits text_nihao = some [0, 2, 3, 2, 0, 0, 1]
      ∧ ∀ id ∈ ([0, 2, 3, 2, 0, 0, 1] : List Int), ∃ s, table_zh.find s = some id :=
  ⟨by decide,
    (C19_output_ids_in_table segmentUnits lex_built lexicon_zh text_nihao
      [0, 2, 3, 2, 0, 0, 1] rfl).2.2 (by decide)⟩

/-! ## C20 -/

theorem tolower_not_upper (c : Nat) : ¬ (65 ≤ tolower c ∧ tolower c ≤ 90) := by
  unfold tolower
  split_ifs <;> omega

theorem ToLowerCase_no_upper (w : Str) :
    ∀ c ∈ ToLowerCase w, ¬ (65 ≤ c ∧ c ≤ 90) := by
  intro c hc
  unfold ToLowerCase at hc
  obtain ⟨c', _, rfl⟩ := List.mem_map.1 hc
  exact tolower_not_upper c'

/-- The keys stored by the loop of `InitLexicon` on the empty lexicon are
lower-cased words. -/
theorem InitLexiconLoop_key_lower (token2id : UMap Int) (lines : List Str) (w : Str)
    (ids : List Int) (h : (w, ids) ∈ InitLexiconLoop token2id lines [] []) :
    ∃ word, w = ToLowerCase word := by
  rcases InitLexiconLoop_entry token2id lines [] [] (w, ids) h with h1 | h1
  · simp at h1
  · obtain ⟨_, _, word, _, _, h3, _⟩ := h1
    exact ⟨word, h3⟩

/-- C20: every key of the lexicon is a fixed point of `ToLowerCase` and has no
byte `A`..`Z`, for every token table and lexicon stream, after each processed
line (the first `k` lines, for every `k`); so for a lexicon object built from
the stream, a unit with an ASCII upper-case letter that is not a punctuation
symbol is not found in the lexicon, contributes nothing, and the Chinese loop
passes over it. -/
theorem C20_lexicon_keys_lowercase (token2id : UMap Int) (is : Str) :
    (∀ (k : Nat) (w : Str) (ids : List Int),
        (w, ids) ∈ InitLexiconLoop token2id ((getLines is).take k) [] [] →
        ToLowerCase w = w ∧ ∀ c ∈ w, ¬ (65 ≤ c ∧ c ≤ 90))
      ∧ (∀ (self : Lexicon), self.word2ids_ = InitLexicon token2id [] is →
        ∀ u : Str, (∃ c ∈ u, 65 ≤ c ∧ c ≤ 90) → u ∉ self.punctuations_ →
          self.word2ids_.find u = none
            ∧ (∀ sil : Int, specChineseUnit self sil u = [])
            ∧ ∀ (sil : Int) (ws : List Str) (ans : List Int),
                chineseLoop self sil (u :: ws) ans = chineseLoop self sil ws ans) := by
  constructor
  · intro k w ids h
    obtain ⟨word, hw⟩ := InitLexiconLoop_key_lower token2id _ w ids h
    rw [hw]
    exact ⟨ToLowerCase_idem word, ToLowerCase_no_upper word⟩
  · intro self hlex u hup hpunct
    have hnone : self.word2ids_.find u = none := by
      cases hf : self.word2ids_.find u with
      | none => rfl
      | some ids =>
        exfalso
        have hmem := mem_of_find _ u ids hf
        rw [hlex] at hmem
        unfold InitLexicon at hmem
        obtain ⟨word, hw⟩ := InitLexiconLoop_key_lower token2id _ u ids hmem
        obtain ⟨c, hc, hcu⟩ := hup
        rw [hw] at hc
        exact ToLowerCase_no_upper word c hc hcu
    refine ⟨hnone, ?_, ?_⟩
    · intro sil
      simp [specChineseUnit, hpunct, hnone]
    · intro sil ws ans
      simp [chineseLoop, setCount_ne_zero_iff, hpunct, count_eq_zero_iff, hnone]

/-- C20 at the lexicon stream `Hello a b`: its key is `hello`, the unit
`Hello` of the Chinese text `Hello` is not found, and the conversion returns
`[sil, sil, eos]`. -/
theorem C20_lexicon_keys_lowercase_witness :
    InitLexicon table_zh [] lexicon_Hello = [([104, 101, 108, 108, 111], [2, 3])]
      ∧ segmentUnits text_Hello = [[72, 101, 108, 108, 111]]
      ∧ lex_Hello.word2ids_.find [72, 101, 108, 108, 111] = none
      ∧ lex_Hello.ConvertTextToTokenIdsChinese segmentUnits text_Hello = some [0, 0, 1] :=
  ⟨by decide, by decide,
    ((C20_lexicon_keys_lowercase table_zh lexicon_Hello).2 lex_Hello rfl
      [72, 101, 108, 108, 111] ⟨72, by decide, by decide⟩ (by decide)).1,
    by decide⟩

/-! ## C14 -/

theorem mem_foldl_setInsert (l init : List Str) (w : Str) :
    w ∈ l.foldl setInsert init ↔ w ∈ init ∨ w ∈ l := by
  induction l generalizing init with
  | nil => simp
  | cons a l ih =>
    rw [List.foldl_cons, ih]
    unfold setInsert
    split_ifs with h
    · constructor
      · rintro (h1 | h1)
        · exact Or.inl h1
        · exact Or.inr (List.mem_cons_of_mem _ h1)
      · rintro (h1 | h1)
        · exact Or.inl h1
        · rcases List.mem_cons.1 h1 with h2 | h2
          · rw [h2]
            exact Or.inl h
          · exact Or.inr h2
    · simp only [List.mem_append, List.mem_singleton, List.mem_cons]
      tauto

theorem dropWhile_head_not (p : Nat → Bool) (l : Str) (x : Nat)
    (h : (l.dropWhile p).head? = some x) : p x = false := by
  cases hd : l.dropWhile p with
  | nil => simp [hd] at h
  | cons c cs =>
    rw [hd] at h
    simp only [List.head?_cons, Option.some.injEq] at h
    have h0 := List.head_dropWhile_not p l (by rw [hd]; simp)
    rw [← h]
    simpa [hd] using h0

/-- The first piece is the run of non-delimiter bytes at the start. -/
theorem splitPieces_head (delim s : Str) :
    ∃ t, splitPieces delim s = s.takeWhile (fun c => decide (c ∉ delim)) :: t := by
  induction s with
  | nil => exact ⟨[], rfl⟩
  | cons c cs ih =>
    obtain ⟨t, ht⟩ := ih
    by_cases hc : c ∈ delim
    · exact ⟨splitPieces delim cs, by simp [splitPieces, hc]⟩
    · exact ⟨t, by simp [splitPieces, hc, ht]⟩

/-- A delimiter-free string followed by nothing or by a delimiter is the run
of non-delimiter bytes at the start. -/
theorem takeWhile_piece (delim w b : Str) (hw : ∀ c ∈ w, c ∉ delim)
    (hb : ∀ x, b.head? = some x → x ∈ delim) :
    (w ++ b).takeWhile (fun c => decide (c ∉ delim)) = w := by
  have h1 : ∀ c ∈ w, (fun c => decide (c ∉ delim)) c = true := fun c hc => by
    simpa using hw c hc
  rw [List.takeWhile_append_of_pos h1]
  cases b with
  | nil => simp
  | cons x b' =>
    have hx : x ∈ delim := hb x rfl
    simp [hx]

/-- The pieces after the first are the delimiter-free substrings that start
right after a delimiter and end at the end or before a delimiter. -/
theorem mem_splitPieces_tail (delim s w : Str) :
    w ∈ (splitPieces delim s).tail
      ↔ (∀ c ∈ w, c ∉ delim) ∧ ∃ a b, s = a ++ w ++ b ∧ a ≠ []
          ∧ (∀ x, a.getLast? = some x → x ∈ delim)
          ∧ (∀ x, b.head? = some x → x ∈ delim) := by
  induction s generalizing w with
  | nil =>
    constructor
    · intro h
      simp [splitPieces] at h
    · rintro ⟨_, a, b, h, ha, _⟩
      cases a with
      | nil => exact absurd rfl ha
      | cons x a' => simp at h
  | cons c cs ih =>
    obtain ⟨t, ht⟩ := splitPieces_head delim cs
    by_cases hc : c ∈ delim
    · have hp : (splitPieces delim (c :: cs)).tail = splitPieces delim cs := by
        simp [splitPieces, hc]
      rw [hp]
      constructor
      · intro h
        rw [ht] at h
        rcases List.mem_cons.1 h with h1 | h1
        · refine ⟨?_, [c], cs.dropWhile (fun c => decide (c ∉ delim)), ?_, by simp, ?_, ?_⟩
          · intro x hx
            rw [h1] at hx
            simpa using List.mem_takeWhile_imp hx
          · rw [h1]
            simp
          · intro x hx
            simp only [List.getLast?_singleton, Option.some.injEq] at hx
            rw [← hx]
            exact hc
          · intro x hx
            simpa using dropWhile_head_not _ cs x hx
        · have h2 : w ∈ (splitPieces delim cs).tail := by
            rw [ht]
            exact h1
          obtain ⟨hw, a, b, h3, ha, hla, hlb⟩ := (ih w).1 h2
          refine ⟨hw, c :: a, b, by rw [h3]; simp, by simp, ?_, hlb⟩
          intro x hx
          cases a with
          | nil => exact absurd rfl ha
          | cons y a' =>
            rw [List.getLast?_cons_cons] at hx
            exact hla x hx
      · rintro ⟨hw, a, b, h, ha, hla, hlb⟩
        cases a with
        | nil => exact absurd rfl ha
        | cons y a' =>
          simp only [List.cons_append, List.cons.injEq] at h
          cases a' with
          | nil =>
            rw [ht]
            refine List.mem_cons.2 (Or.inl ?_)
            rw [h.2]
            simp only [List.nil_append]
            exact (takeWhile_piece delim w b hw hlb).symm
          | cons z a'' =>
            have h2 : w ∈ (splitPieces delim cs).tail :=
              (ih w).2 ⟨hw, z :: a'', b, h.2, by simp, fun x hx => hla x (by
                rw [List.getLast?_cons_cons]
                exact hx), hlb⟩
            rw [ht] at h2 ⊢
            exact List.mem_cons_of_mem _ h2
    · have hp : (splitPieces delim (c :: cs)).tail = (splitPieces delim cs).tail := by
        simp [splitPieces, hc, ht]
      rw [hp]
      constructor
      · intro h
        obtain ⟨hw, a, b, h3, ha, hla, hlb⟩ := (ih w).1 h
        refine ⟨hw, c :: a, b, by rw [h3]; simp, by simp, ?_, hlb⟩
        intro x hx
        cases a with
        | nil => exact absurd rfl ha
        | cons y a' =>
          rw [List.getLast?_cons_cons] at hx
          exact hla x hx
      · rintro ⟨hw, a, b, h, ha, hla, hlb⟩
        cases a with
        | nil => exact absurd rfl ha
        | cons y a' =>
          simp only [List.cons_append, List.cons.injEq] at h
          cases a' with
          | nil =>
            exfalso
            apply hc
            rw [h.1]
            exact hla y (by simp)
          | cons z a'' =>
            exact (ih w).2 ⟨hw, z :: a'', b, h.2, by simp, fun x hx => hla x (by
              rw [List.getLast?_cons_cons]
              exact hx), hlb⟩

/-- The pieces are exactly the maximal delimiter-free substrings. -/
theorem mem_splitPieces (delim s w : Str) :
    w ∈ splitPieces delim s
      ↔ (∀ c ∈ w, c ∉ delim) ∧ ∃ a b, s = a ++ w ++ b
          ∧ (∀ x, a.getLast? = some x → x ∈ delim)
          ∧ (∀ x, b.head? = some x → x ∈ delim) := by
  obtain ⟨t, ht⟩ := splitPieces_head delim s
  have htail : (splitPieces delim s).tail = t := by rw [ht]; rfl
  constructor
  · intro h
    rw [ht] at h
    rcases List.mem_cons.1 h with h1 | h1
    · refine ⟨?_, [], s.dropWhile (fun c => decide (c ∉ delim)), ?_, by simp, ?_⟩
      · intro x hx
        rw [h1] at hx
        simpa using List.mem_takeWhile_imp hx
      · rw [h1]
        simp
      · intro x hx
        simpa using dropWhile_head_not _ s x hx
    · rw [← htail] at h1
      obtain ⟨hw, a, b, h3, _, hla, hlb⟩ := (mem_splitPieces_tail delim s w).1 h1
      exact ⟨hw, a, b, h3, hla, hlb⟩
  · rintro ⟨hw, a, b, h, hla, hlb⟩
    cases a with
    | nil =>
      rw [ht]
      refine List.mem_cons.2 (Or.inl ?_)
      rw [h]
      simp only [List.nil_append]
      exact (takeWhile_piece delim w b hw hlb).symm
    | cons y a' =>
      have h2 := (mem_splitPieces_tail delim s w).2 ⟨hw, y :: a', b, h, by simp, hla, hlb⟩
      rw [htail] at h2
      rw [ht]
      exact List.mem_cons_of_mem _ h2

/-- C14: the punctuation set.  On the code, for every helper
`SplitStringToVector`, the set built by `InitPunctuations` has exactly the
strings that the helper returns for the configuration string, the delimiter
`" "` and the flag `false` (no case folding, no filtering).  With the helper
modelled from the spec, the set is exactly the set of non-empty maximal
space-free substrings of the configuration string, and the empty string is
never a member. -/
theorem C14_punctuation_set (punctuations w : Str) :
    (∀ split : Str → Str → Bool → List Str,
        w ∈ InitPunctuations split [] punctuations
          ↔ w ∈ split punctuations str_blank false)
      ∧ (w ∈ InitPunctuations specSplitStringToVector [] punctuations
          ↔ isSpaceFreeField punctuations w)
      ∧ [] ∉ InitPunctuations specSplitStringToVector [] punctuations := by
  have hcode : ∀ (split : Str → Str → Bool → List Str) (v : Str),
      v ∈ InitPunctuations split [] punctuations
        ↔ v ∈ split punctuations str_blank false := by
    intro split v
    unfold InitPunctuations
    simp only [mem_foldl_setInsert, List.not_mem_nil, false_or]
  refine ⟨fun split => hcode split w, ?_, ?_⟩
  · rw [hcode]
    unfold specSplitStringToVector isSpaceFreeField
    rw [List.mem_filter, mem_splitPieces]
    simp only [str_blank, List.mem_singleton, decide_eq_true_eq]
    tauto
  · rw [hcode]
    unfold specSplitStringToVector
    simp [List.mem_filter]

/-- C14 at the configuration string ` , A  .`: the set is `{",", "A", "."}`;
`A` keeps its case and no empty string comes from the leading or the doubled
space. -/
theorem C14_punctuation_set_witness :
    InitPunctuations specSplitStringToVector [] punct_config = [[44], [65], [46]]
      ∧ isSpaceFreeField punct_config [65] :=
  ⟨by decide, (C14_punctuation_set punct_config [65]).2.1.1 (by decide)⟩

end sherpa_onnx
